import Mathlib

set_option maxRecDepth 200000

/-!
# Verification of the R2AIBridge-CLI conversation-state engine

Shallow embedding of the message-history model of `src/lib/analyzer.py`
(`AIAnalyzer._sanitize_messages_for_tools`, `AIAnalyzer._trim_messages`,
`AIAnalyzer._parse_dsml_function_calls`, the tool-error tally of
`AIAnalyzer.chat`, `AIAnalyzer._dangerous_action_for_termux_command`,
`AIAnalyzer.load_session` / `export_session`) and of
`src/lib/schema.py` (`validate_args`).

Conventions of the embedding:
* A message is a Python dict with keys `role`, `content`,
  `reasoning_content`, `tool_calls`, `tool_call_id`.  A missing string
  key behaves exactly like `""` in the code (every access goes through
  `str(x or "")`), so string fields are plain `String`s.  A missing
  `tool_calls` key is `none`; a present list is `some`.
* A `tool_calls` entry that is not a dict, or whose `function` field is
  not a dict, is handled by the code exactly like an entry with empty
  name and id (it is skipped by every consumer and only its presence in
  the list is observable), so such entries are modelled as entries with
  empty strings.
* Python `str.strip()` is modelled by `pyStrip` below, which removes
  the ASCII whitespace characters Python strips (the claims only
  involve ASCII data, so the unicode cases are irrelevant).
* `len(json.dumps(msg, ensure_ascii=False))` is modelled by an abstract
  size function `sz : Msg → Nat` wherever a theorem is universally
  quantified, and by the concrete `msgSize` (which rebuilds the JSON
  text of a message, with the key order the code uses when it creates
  messages) in concrete witnesses and counterexamples.
-/

/-- One entry of an assistant message's `tool_calls` list:
`{"id": …, "type": "function", "function": {"name": …, "arguments": …}}`. -/
structure ToolCall where
  id : String
  name : String
  args : String
deriving DecidableEq, Repr

/-- One conversation message (a Python dict, see the conventions above). -/
structure Msg where
  role : String
  content : String
  reasoning : String
  toolCalls : Option (List ToolCall)
  toolCallId : String
deriving DecidableEq, Repr

/-- `role == "assistant" and isinstance(tool_calls, list) and tool_calls`:
an assistant message with a non-empty `tool_calls` list. -/
def isAB (m : Msg) : Bool :=
  m.role == "assistant" &&
    (match m.toolCalls with
     | some (_ :: _) => true
     | _ => false)

/-- Python's `\s` / `str.strip()` whitespace set (ASCII part). -/
def isPyWs (c : Char) : Bool :=
  c == ' ' || c == '\t' || c == '\n' || c == '\r' || c == '\x0b' || c == '\x0c'

/-- Python `str.strip()`. -/
def pyStrip (s : String) : String :=
  String.mk (((s.data.dropWhile isPyWs).reverse.dropWhile isPyWs).reverse)

/-- The inner loop of `_sanitize_messages_for_tools` over `tcs_raw`
(`for idx, tc in enumerate(tcs_raw)`): drop entries with empty name or
empty id, fabricating `f"fixup_{len(cleaned)}_{idx}"` ids for named
entries whose id is missing. -/
def fixTCs (cleanedLen : Nat) : Nat → List ToolCall → List ToolCall
  | _, [] => []
  | idx, tc :: rest =>
    let name := pyStrip tc.name
    let tid0 := pyStrip tc.id
    if tid0 == "" && name != "" then
      { tc with id := "fixup_" ++ toString cleanedLen ++ "_" ++ toString idx }
        :: fixTCs cleanedLen (idx + 1) rest
    else if tid0 == "" || name == "" then
      fixTCs cleanedLen (idx + 1) rest
    else
      tc :: fixTCs cleanedLen (idx + 1) rest

/-- Predicate used for the `while … role == "tool"` runs. -/
def isToolRole (m : Msg) : Bool := m.role == "tool"

/-- The body of the assistant case of `_sanitize_messages_for_tools`
(src/lib/analyzer.py:593-623): from the raw `tool_calls` list and the
messages following the assistant message, compute `filtered_tcs`, the
matching `tool_msgs` collected from the immediately following tool run,
and the remainder of the log after that run. -/
def blockParts (cnt : Nat) (tcs : List ToolCall) (rest : List Msg) :
    List ToolCall × List Msg × List Msg :=
  let fixed := fixTCs cnt 0 tcs
  let expected := fixed.map (fun tc => pyStrip tc.id)
  let run := rest.takeWhile isToolRole
  let toolMsgs := run.filter
    (fun tm => pyStrip tm.toolCallId != "" && expected.contains (pyStrip tm.toolCallId))
  let responded := toolMsgs.map (fun tm => pyStrip tm.toolCallId)
  (fixed.filter (fun tc => responded.contains (pyStrip tc.id)),
   toolMsgs,
   rest.dropWhile isToolRole)

/-- `AIAnalyzer._sanitize_messages_for_tools`, src/lib/analyzer.py:565-640.
`fuel` is an upper bound on the list length (each step consumes at least
one message, so `sanitize` below supplies `l.length`); `cnt` is
`len(cleaned)`, used only to fabricate `fixup_…` ids. -/
def sanitizeGo : Nat → Nat → List Msg → List Msg
  | _, _, [] => []
  | 0, _, l => l
  | fuel + 1, cnt, msg :: rest =>
    if msg.role == "assistant" then
      match msg.toolCalls with
      | none => msg :: sanitizeGo fuel (cnt + 1) rest
      | some [] => msg :: sanitizeGo fuel (cnt + 1) rest
      | some (tc0 :: tcs0) =>
        let toolMsgs := (blockParts cnt (tc0 :: tcs0) rest).2.1
        let after := (blockParts cnt (tc0 :: tcs0) rest).2.2
        match (blockParts cnt (tc0 :: tcs0) rest).1 with
        | f0 :: fs =>
          { msg with toolCalls := some (f0 :: fs) }
            :: (toolMsgs ++ sanitizeGo fuel (cnt + 1 + toolMsgs.length) after)
        | [] =>
          if pyStrip msg.content == "" && pyStrip msg.reasoning == "" then
            sanitizeGo fuel cnt after
          else
            { msg with toolCalls := none }
              :: (toolMsgs ++ sanitizeGo fuel (cnt + 1 + toolMsgs.length) after)
    else if msg.role == "tool" then
      sanitizeGo fuel cnt rest
    else
      msg :: sanitizeGo fuel (cnt + 1) rest

/-- `_sanitize_messages_for_tools` as a pure function on the log. -/
def sanitize (l : List Msg) : List Msg := sanitizeGo l.length 0 l

/-- `while tail and tail[0].get("role") == "tool": tail = tail[1:]`. -/
def dropLeadingTools (l : List Msg) : List Msg := l.dropWhile isToolRole

/-- Phase 1 of `_trim_messages` (src/lib/analyzer.py:359-366): if the
log has more than `M` messages keep message 0 plus the Python slice
`messages[-(M-1):]` with leading tool messages dropped.  The slice is
modelled with Python's semantics: `M = 1` gives `messages[-0:]` (the
whole list) and `M = 0` gives `messages[1:]`. -/
def countTrim (M : Nat) (l : List Msg) : List Msg :=
  if l.length > M then
    match l with
    | [] => []
    | m0 :: _ =>
      m0 :: dropLeadingTools
        (if M = 0 then l.drop 1
         else if M = 1 then l
         else l.drop (l.length - (M - 1)))
  else l

/-- The atomic-block partition of `messages[1:]` built by the char-budget
phase of `_trim_messages` (src/lib/analyzer.py:391-414): a run starting
at an assistant message with non-empty `tool_calls` plus the tool
messages following it is one block; every other message is its own
block.  `fuel` bounds the length as in `sanitizeGo` (the fuel-exhausted
branch keeps the partition property `flatten ∘ mkBlocks = id`). -/
def mkBlocksGo : Nat → List Msg → List (List Msg)
  | _, [] => []
  | 0, l => l.map (fun m => [m])
  | fuel + 1, m :: rest =>
    if isAB m then
      (m :: rest.takeWhile isToolRole) :: mkBlocksGo fuel (rest.dropWhile isToolRole)
    else
      [m] :: mkBlocksGo fuel rest

def mkBlocks (l : List Msg) : List (List Msg) := mkBlocksGo l.length l

/-- Total serialized size of a list of messages for a size function. -/
def msgsSize (sz : Msg → Nat) (l : List Msg) : Nat := (l.map sz).sum

/-- The accumulation loop `for block in reversed(blocks): …`
(src/lib/analyzer.py:416-423).  `kept` and `kc` mirror `kept` and
`kept_chars`; the loop stops (`break`) once something has been kept and
the next block would push the running size over the budget. -/
def keepLoop (sz : Msg → Nat) (C : Nat) : List (List Msg) → List Msg → Nat → List Msg × Nat
  | [], kept, kc => (kept, kc)
  | b :: bs, kept, kc =>
    if kept ≠ [] ∧ C < kc + msgsSize sz b then (kept, kc)
    else keepLoop sz C bs (kept ++ b.reverse) (kc + msgsSize sz b)

/-- The invariant-4 fixup after the char phase
(src/lib/analyzer.py:428-433): drop the leading tool run of
`messages[1:]` when `messages[1]` is a tool message. -/
def dropToolsAfterHead : List Msg → List Msg
  | m0 :: m1 :: rest =>
    if m1.role == "tool" then m0 :: dropLeadingTools (m1 :: rest)
    else m0 :: m1 :: rest
  | l => l

/-- Phase 2 of `_trim_messages` (src/lib/analyzer.py:368-433): the
character-budget trim.  `sz` abstracts
`len(json.dumps(msg, ensure_ascii=False))`. -/
def charTrim (sz : Msg → Nat) (C : Nat) (l : List Msg) : List Msg :=
  if msgsSize sz l ≤ C then l
  else
    match l with
    | [] => []
    | m0 :: rest =>
      dropToolsAfterHead
        (m0 :: (keepLoop sz C (mkBlocks rest).reverse [] (sz m0)).1.reverse)

/-- `AIAnalyzer._trim_messages` (src/lib/analyzer.py:351-442): sanitize,
then the message-count phase, then the character-budget phase. -/
def trimMessages (sz : Msg → Nat) (M C : Nat) (l : List Msg) : List Msg :=
  charTrim sz C (countTrim M (sanitize l))

/-- Pairing checker for claim C1.  `exact := true` demands that every
`tool_calls` entry of a retained assistant message is answered by
exactly one tool message in the run that follows it (the spec's notion
of "answered"); `exact := false` demands at least one.  In both modes a
tool message outside such a run, or one whose `tool_call_id` matches no
entry of the preceding assistant message, fails the check. -/
def pairingOkGo (exact : Bool) : Nat → List Msg → Bool
  | _, [] => true
  | 0, _ => false
  | fuel + 1, m :: rest =>
    if m.role == "tool" then false
    else if isAB m then
      let tcs := m.toolCalls.getD []
      let run := rest.takeWhile isToolRole
      (tcs.all fun tc =>
        let n := run.countP (fun tm => pyStrip tm.toolCallId == pyStrip tc.id)
        if exact then n == 1 else decide (1 ≤ n)) &&
      (run.all fun tm => tcs.any fun tc => pyStrip tc.id == pyStrip tm.toolCallId) &&
      pairingOkGo exact fuel (rest.dropWhile isToolRole)
    else
      pairingOkGo exact fuel rest

/-- Pairing with the spec's "answered exactly once". -/
def pairingExact (l : List Msg) : Bool := pairingOkGo true l.length l

/-- Pairing with "answered at least once". -/
def pairingAtLeast (l : List Msg) : Bool := pairingOkGo false l.length l

/-! ## Concrete serialized size

`json.dumps(msg, ensure_ascii=False)` rebuilt for the key layout the
code uses when it constructs messages (`role` and `content` always
present; `reasoning_content`, `tool_calls`, `tool_call_id` present when
non-empty).  Only used in concrete witnesses and counterexamples. -/

/-- JSON string escaping as `json.dumps` performs it (ASCII control
characters below 0x20 that have no short escape become `\u00XX`). -/
def pyJsonEscapeChar (c : Char) : String :=
  if c = '"' then "\\\""
  else if c = '\\' then "\\\\"
  else if c = '\n' then "\\n"
  else if c = '\t' then "\\t"
  else if c = '\r' then "\\r"
  else if c = '\x08' then "\\b"
  else if c = '\x0c' then "\\f"
  else if c.toNat < 32 then
    let hx := Nat.toDigits 16 c.toNat
    "\\u00" ++ (if c.toNat < 16 then "0" else "") ++ String.mk hx
  else String.singleton c

def pyJsonEscape (s : String) : String :=
  String.join (s.data.map pyJsonEscapeChar)

def joinSep (sep : String) : List String → String
  | [] => ""
  | [x] => x
  | x :: xs => x ++ sep ++ joinSep sep xs

def toolCallJson (tc : ToolCall) : String :=
  "\x7b\"id\": \"" ++ pyJsonEscape tc.id ++
    "\", \"type\": \"function\", \"function\": \x7b\"name\": \"" ++
    pyJsonEscape tc.name ++ "\", \"arguments\": \"" ++
    pyJsonEscape tc.args ++ "\"\x7d\x7d"

def msgJson (m : Msg) : String :=
  "\x7b\"role\": \"" ++ pyJsonEscape m.role ++
    "\", \"content\": \"" ++ pyJsonEscape m.content ++ "\"" ++
    (if m.reasoning != "" then
      ", \"reasoning_content\": \"" ++ pyJsonEscape m.reasoning ++ "\"" else "") ++
    (match m.toolCalls with
     | some tcs => ", \"tool_calls\": [" ++ joinSep ", " (tcs.map toolCallJson) ++ "]"
     | none => "") ++
    (if m.toolCallId != "" then
      ", \"tool_call_id\": \"" ++ pyJsonEscape m.toolCallId ++ "\"" else "") ++
    "\x7d"

/-- `len(json.dumps(msg, ensure_ascii=False))` for concrete messages. -/
def msgSize (m : Msg) : Nat := (msgJson m).length

/-! ## Structural characterization of sanitized logs -/

/-- The first message (if any) is not a tool message. -/
def headNotTool : List Msg → Prop
  | [] => True
  | m :: _ => m.role ≠ "tool"

/-- Sanitized shape of a log: a sequence of plain messages (neither tool
messages nor assistant messages with a non-empty `tool_calls` list) and
of complete blocks.  In a block every tool message answers some entry of
the assistant message's `tool_calls` and every entry is answered by at
least one tool message; all retained entries have non-blank names.
`sanitize` produces exactly such logs and is the identity on them. -/
inductive San : List Msg → Prop where
  | nil : San []
  | plain {m : Msg} {rest : List Msg} :
      m.role ≠ "tool" → isAB m = false → headNotTool rest → San rest →
      San (m :: rest)
  | block {a : Msg} (tcs : List ToolCall) {tools rest : List Msg} :
      a.role = "assistant" → a.toolCalls = some tcs → tcs ≠ [] →
      (∀ tm ∈ tools, tm.role = "tool") →
      (∀ tm ∈ tools, pyStrip tm.toolCallId ≠ "" ∧
        ∃ tc ∈ tcs, pyStrip tc.id = pyStrip tm.toolCallId) →
      (∀ tc ∈ tcs, pyStrip tc.name ≠ "" ∧
        ∃ tm ∈ tools, pyStrip tm.toolCallId = pyStrip tc.id) →
      headNotTool rest → San rest →
      San (a :: (tools ++ rest))

/-! ## Tool-error tally of the chat loop (C5)

`AIAnalyzer.chat` (src/lib/analyzer.py:1103-1526) abstracted over the
decoded model turns: what each turn's tool calls produced is the input,
the dispatch bookkeeping is the model. -/

/-- Outcome of dispatching one tool call of a turn, as classified by
the tool loop of `chat`: a validation failure (only reported back to
the model), a recoverable tool error, a fatal (non-recoverable) tool
error carrying its formatted error line, or a success. -/
inductive ToolOutcome where
  | success
  | validationError (e : String)
  | recoverableError (e : String)
  | fatalError (e : String)
deriving DecidableEq, Repr

def isFatal : ToolOutcome → Bool
  | .fatalError _ => true
  | _ => false

def isSuccess : ToolOutcome → Bool
  | .success => true
  | _ => false

/-- Python `l[-k:]` for `k > 0`. -/
def pyLastN (k : Nat) (l : List String) : List String := l.drop (l.length - k)

/-- Python `"\n".join(l)`. -/
def joinLines : List String → String
  | [] => ""
  | [x] => x
  | x :: xs => x ++ "\n" ++ joinLines xs

/-- Does `n` occur at the start of `h`? -/
def listStartsWith : List Char → List Char → Bool
  | _, [] => true
  | [], _ :: _ => false
  | c :: cs, d :: ds => c == d && listStartsWith cs ds

/-- Does `n` occur as a contiguous substring of `h`? -/
def listHasSub : List Char → List Char → Bool
  | [], n => listStartsWith [] n
  | c :: t, n => listStartsWith (c :: t) n || listHasSub t n

/-- Python `str.lower()` (ASCII part; the matched patterns are ASCII or
Chinese, which `lower` leaves unchanged). -/
def pyLower (s : String) : String := String.mk (s.data.map Char.toLower)

/-- `re.search` of an alternation of literal strings. -/
def containsAny (blob : String) (pats : List String) : Bool :=
  pats.any (fun p => listHasSub blob.data p.data)

/-- `AIAnalyzer._nonrecoverable_guidance` (src/lib/analyzer.py:799-821).
Every pattern in the source is a parenthesized alternation of literal
strings searched in the lowercased joined error text, so each
`re.search` is modelled by `containsAny`. -/
def nonrecoverableGuidance (errors : List String) : String :=
  let blob := pyLower (joinLines errors)
  if pyStrip blob == "" then ""
  else
    let hints : List String :=
      (if containsAny blob ["401", "403", "unauthorized", "forbidden", "api key",
          "invalid key", "auth"] then
        ["鉴权失败：检查 AI API Key / Base URL 是否正确；确认服务端/代理未拦截。"] else []) ++
      (if containsAny blob ["429", "rate limit", "too many requests"] then
        ["触发限流：降低并发/等待一会再试；必要时更换模型或提高限额。"] else []) ++
      (if containsAny blob ["500", "internal server error"] ||
          containsAny blob ["502", "503", "504", "gateway"] then
        ["服务端/网关异常：先执行 health 确认桥接服务可用；再重试 tools/list 或 tool_calls。"] else []) ++
      (if containsAny blob ["schema", "参数校验失败", "required", "additionalproperties"] then
        ["参数/schema 问题：先运行 list/tools 确认 inputSchema，再按 required 字段补齐参数。"] else []) ++
      (if containsAny blob ["permission denied", "eacces", "operation not permitted"] then
        ["权限问题：确认 Termux 存储权限（termux-setup-storage）或改用可读路径 /storage/emulated/0/...。"] else []) ++
      (if containsAny blob ["no such file", "enoent", "not found", "does not exist"] then
        ["路径不存在：先用 termux_command 执行 ls/stat/pwd 确认路径，再用正确路径重试。"] else [])
    if hints = [] then ""
    else "可能原因与建议：\n" ++ joinLines ((hints.take 6).map (fun h => "- " ++ h))

/-- The diagnostic summary built when the tally of consecutive fatal
errors reaches 4 (src/lib/analyzer.py:1426-1430). -/
def haltSummary (errors : List String) : String :=
  let text := "工具调用连续失败，已停止自动循环。\n最近错误：\n" ++
    joinLines ((pyLastN 3 errors).map (fun e => "- " ++ e))
  let guidance := nonrecoverableGuidance (pyLastN 6 errors)
  if guidance != "" then text ++ "\n\n" ++ guidance else text

/-- The per-tool-call error tally of the tool loop of `chat`
(src/lib/analyzer.py:1338-1465): a validation failure only sends a
tool-result message back, a recoverable error is tallied in a separate
list, a fatal error is appended to `errors` — halting with the
diagnostic summary once `len(errors) >= 4` — and any successful call
resets `errors` to `[]`.  Returns the carried `errors` list, or the
summary on halt. -/
def runToolsGo (errors : List String) : List ToolOutcome → (List String) ⊕ String
  | [] => Sum.inl errors
  | ToolOutcome.success :: os => runToolsGo [] os
  | ToolOutcome.validationError _ :: os => runToolsGo errors os
  | ToolOutcome.recoverableError _ :: os => runToolsGo errors os
  | ToolOutcome.fatalError e :: os =>
    if 4 ≤ (errors ++ [e]).length then Sum.inr (haltSummary (errors ++ [e]))
    else runToolsGo (errors ++ [e]) os

/-- One decoded model turn, as far as the error tally is concerned: a
turn with tool calls and their dispatch outcomes, a no-tool-call turn
on which one of the retry branches fires (the loop continues), or a
no-tool-call turn accepted as the final answer (the loop returns). -/
inductive TurnScript where
  | toolTurn (outs : List ToolOutcome)
  | retryTurn
  | finalTurn (text : String)

/-- How `chat` ends: halted by the fatal-error ceiling with the
diagnostic summary, a final text answer, or the forced closing request
after `max_turns` is exhausted. -/
inductive ChatResult where
  | halted (summary : String)
  | finalAnswer (text : String)
  | forcedSummary
deriving DecidableEq, Repr

/-- The turn loop of `chat`: one model request per iteration
(`_stream_assistant_turn`), threading the fatal-error tally `errors`
across turns; after `max_turns` iterations one extra request fetches
closing text.  Returns the number of model requests issued and the
result. -/
def chatLoopGo (script : Nat → TurnScript) (errors : List String)
    (requests turnIdx : Nat) : Nat → Nat × ChatResult
  | 0 => (requests + 1, ChatResult.forcedSummary)
  | fuel + 1 =>
    match script turnIdx with
    | .finalTurn t => (requests + 1, ChatResult.finalAnswer t)
    | .retryTurn => chatLoopGo script errors (requests + 1) (turnIdx + 1) fuel
    | .toolTurn outs =>
      match runToolsGo errors outs with
      | .inr summary => (requests + 1, ChatResult.halted summary)
      | .inl errors2 => chatLoopGo script errors2 (requests + 1) (turnIdx + 1) fuel

/-- `chat` with `max_turns = 24`, starting with no tallied errors. -/
def chatLoop (script : Nat → TurnScript) : Nat × ChatResult :=
  chatLoopGo script [] 0 0 24

def turnOutcomes : TurnScript → List ToolOutcome
  | .toolTurn outs => outs
  | _ => []

/-- The tool-call outcomes of turns `i ≤ j ≤ k`, in dispatch order. -/
def outcomesFrom (script : Nat → TurnScript) (i k : Nat) : List ToolOutcome :=
  ((List.range' i (k + 1 - i)).map (fun j => turnOutcomes (script j))).flatten

/-- The tool-call outcomes of the first `k + 1` turns, in dispatch
order. -/
def outcomesThrough (script : Nat → TurnScript) (k : Nat) : List ToolOutcome :=
  outcomesFrom script 0 k

/-- Four fatal tool errors with no successful tool call between them,
somewhere in an outcome sequence (validation failures and recoverable
errors may be interspersed: they neither count nor reset). -/
def FatalWindow (outs : List ToolOutcome) : Prop :=
  ∃ a w c, outs = a ++ w ++ c ∧ (∀ o ∈ w, isSuccess o = false) ∧ 4 ≤ w.countP isFatal

/-! ## Fallback extraction of DSML tool calls (C6)

`AIAnalyzer._parse_dsml_function_calls` (src/lib/analyzer.py:455-501)
and the fallback hook in `chat` (src/lib/analyzer.py:1138-1167).  The
two regexes are translated into explicit scanners with the same
semantics (case-insensitive literals via `re.IGNORECASE`, `[|｜]` bars,
greedy `[^"]+`/`[^>]*`, non-greedy bodies ended by the first closing
tag, non-overlapping leftmost `finditer` matches). -/

/-- Case-insensitive character comparison (`re.IGNORECASE`). -/
def charCI (a b : Char) : Bool := a.toLower == b.toLower

/-- The half- or full-width bar matched by the `[|｜]` class. -/
def isDsmlBar (c : Char) : Bool := c == '|' || c == '｜'

/-- Consume the literal `pat` from the front of `s`, case-insensitively. -/
def eatCI : List Char → List Char → Option (List Char)
  | s, [] => some s
  | [], _ :: _ => none
  | c :: cs, d :: ds => if charCI c d then eatCI cs ds else none

/-- Consume `<` `[|｜]` `DSML` `[|｜]` `word`. -/
def eatTagHead (word : List Char) (s : List Char) : Option (List Char) :=
  match s with
  | '<' :: b1 :: rest =>
    if isDsmlBar b1 then
      match eatCI rest ['D', 'S', 'M', 'L'] with
      | some (b2 :: rest2) => if isDsmlBar b2 then eatCI rest2 word else none
      | _ => none
    else none
  | _ => none

/-- Consume `</` `[|｜]` `DSML` `[|｜]` `word` `>`. -/
def eatCloseTag (word : List Char) (s : List Char) : Option (List Char) :=
  match s with
  | '<' :: '/' :: b1 :: rest =>
    if isDsmlBar b1 then
      match eatCI rest ['D', 'S', 'M', 'L'] with
      | some (b2 :: rest2) =>
        if isDsmlBar b2 then
          match eatCI rest2 word with
          | some ('>' :: rest3) => some rest3
          | _ => none
        else none
      | _ => none
    else none
  | _ => none

/-- Non-greedy `([\s\S]*?)` up to the first closing tag: returns the
body and the text after the closing tag. -/
def findClose (word : List Char) : List Char → Option (List Char × List Char)
  | [] => none
  | c :: rest =>
    match eatCloseTag word (c :: rest) with
    | some after => some ([], after)
    | none =>
      match findClose word rest with
      | some p => some (c :: p.1, p.2)
      | none => none

/-- `name="([^"]+)"`: the capture is the greedy non-quote run, which
must be non-empty and followed by the closing quote. -/
def eatNameAttr (s : List Char) : Option (List Char × List Char) :=
  match eatCI s ['n', 'a', 'm', 'e', '=', '"'] with
  | some rest =>
    match rest.dropWhile (fun c => c != '"') with
    | '"' :: rest3 =>
      if (rest.takeWhile (fun c => c != '"')).isEmpty then none
      else some (rest.takeWhile (fun c => c != '"'), rest3)
    | _ => none
  | none => none

/-- One match of `invoke_pattern` anchored at the start of `s`:
`<[|｜]DSML[|｜]invoke\s+name="([^"]+)"\s*>([\s\S]*?)</[|｜]DSML[|｜]invoke>`.
Returns (captured name, body, rest after the match). -/
def tryInvokeAt (s : List Char) : Option (List Char × List Char × List Char) :=
  match eatTagHead ['i', 'n', 'v', 'o', 'k', 'e'] s with
  | none => none
  | some r1 =>
    match r1 with
    | c :: r2 =>
      if isPyWs c then
        match eatNameAttr (r2.dropWhile isPyWs) with
        | none => none
        | some (nm, r4) =>
          match r4.dropWhile isPyWs with
          | '>' :: r6 =>
            match findClose ['i', 'n', 'v', 'o', 'k', 'e'] r6 with
            | some p => some (nm, p.1, p.2)
            | none => none
          | _ => none
      else none
    | [] => none

/-- Leftmost `invoke_pattern` match in `s`. -/
def findInvoke : List Char → Option (List Char × List Char × List Char)
  | [] => none
  | c :: rest =>
    match tryInvokeAt (c :: rest) with
    | some r => some r
    | none => findInvoke rest

/-- `invoke_pattern.finditer`: leftmost non-overlapping matches. -/
def parseInvokesGo : Nat → List Char → List (List Char × List Char)
  | 0, _ => []
  | fuel + 1, s =>
    match findInvoke s with
    | none => []
    | some (nm, body, after) => (nm, body) :: parseInvokesGo fuel after

/-- One match of `param_pattern` anchored at the start of `s`:
`<[|｜]DSML[|｜]parameter\s+name="([^"]+)"[^>]*>([\s\S]*?)</[|｜]DSML[|｜]parameter>`. -/
def tryParamAt (s : List Char) : Option (List Char × List Char × List Char) :=
  match eatTagHead ['p', 'a', 'r', 'a', 'm', 'e', 't', 'e', 'r'] s with
  | none => none
  | some r1 =>
    match r1 with
    | c :: r2 =>
      if isPyWs c then
        match eatNameAttr (r2.dropWhile isPyWs) with
        | none => none
        | some (nm, r4) =>
          match r4.dropWhile (fun c => c != '>') with
          | '>' :: r6 =>
            match findClose ['p', 'a', 'r', 'a', 'm', 'e', 't', 'e', 'r'] r6 with
            | some p => some (nm, p.1, p.2)
            | none => none
          | _ => none
      else none
    | [] => none

/-- Leftmost `param_pattern` match in `s`. -/
def findParam : List Char → Option (List Char × List Char × List Char)
  | [] => none
  | c :: rest =>
    match tryParamAt (c :: rest) with
    | some r => some r
    | none => findParam rest

/-- `param_pattern.finditer`. -/
def parseParamsGo : Nat → List Char → List (List Char × List Char)
  | 0, _ => []
  | fuel + 1, s =>
    match findParam s with
    | none => []
    | some (nm, body, after) => (nm, body) :: parseParamsGo fuel after

/-- All parameter matches as stripped (name, value) string pairs. -/
def parseParams (s : List Char) : List (String × String) :=
  (parseParamsGo (s.length + 1) s).map
    (fun p => (pyStrip (String.mk p.1), pyStrip (String.mk p.2)))

/-- Python dict assignment `args[k] = v`: replace in place or append. -/
def dictSet (l : List (String × String)) (k v : String) : List (String × String) :=
  if l.any (fun p => p.1 == k) then
    l.map (fun p => if p.1 == k then (k, v) else p)
  else l ++ [(k, v)]

/-- `args` built by assigning each parameter in match order. -/
def buildArgs (ps : List (String × String)) : List (String × String) :=
  ps.foldl (fun acc p => dictSet acc p.1 p.2) []

/-- `json.dumps(args, ensure_ascii=False)` for a string-valued dict. -/
def jsonDumpsStrObj (pairs : List (String × String)) : String :=
  "\x7b" ++ joinSep ", " (pairs.map (fun p =>
    "\"" ++ pyJsonEscape p.1 ++ "\": \"" ++ pyJsonEscape p.2 ++ "\"")) ++ "\x7d"

/-- The calls list of the first branch: ids `dsml_0`, `dsml_1`, …. -/
def buildCalls : Nat → List (List Char × List Char) → List ToolCall
  | _, [] => []
  | idx, (nm, body) :: rest =>
    { id := "dsml_" ++ toString idx,
      name := pyStrip (String.mk nm),
      args := jsonDumpsStrObj (buildArgs (parseParams body)) }
      :: buildCalls (idx + 1) rest

/-- The greedy `[^>]*\sname="([^"]+)"` completion of
`invoke_name_pattern`: scan forward over non-`>` characters and return
the capture of the last position where a whitespace is immediately
followed by `name="…"`. -/
def scanInvokeName : List Char → Option (List Char)
  | [] => none
  | c :: rest =>
    match (if c != '>' then scanInvokeName rest else none) with
    | some nm => some nm
    | none =>
      if isPyWs c then
        match eatNameAttr rest with
        | some (nm, _) => some nm
        | none => none
      else none

/-- `invoke_name_pattern.search`: leftmost position whose tag head and
name completion both match. -/
def findInvokeName : List Char → Option (List Char)
  | [] => none
  | c :: rest =>
    match (match eatTagHead ['i', 'n', 'v', 'o', 'k', 'e'] (c :: rest) with
           | some r1 => scanInvokeName r1
           | none => none) with
    | some nm => some nm
    | none => findInvokeName rest

/-- `AIAnalyzer._parse_dsml_function_calls` (src/lib/analyzer.py:455-501). -/
def parseDsml (text : String) : List ToolCall :=
  let content := pyStrip text
  if content == "" then []
  else
    let cs := content.data
    let calls := buildCalls 0 (parseInvokesGo (cs.length + 1) cs)
    if calls ≠ [] then calls
    else if !(listHasSub cs "DSML".data) && !(listHasSub cs "dsml".data) then []
    else
      match findInvokeName cs with
      | none => []
      | some nm =>
        [{ id := "dsml_0",
           name := pyStrip (String.mk nm),
           args := jsonDumpsStrObj (buildArgs (parseParams cs)) }]

/-- The structured-channel filter of `chat`
(src/lib/analyzer.py:1138-1155): drop nameless entries, fabricate
`tc_{now_ms}_{index}` ids for entries with blank ids. -/
def filterStructuredGo (nowMs : Nat) : Nat → List ToolCall → List ToolCall
  | _, [] => []
  | acc, tc :: rest =>
    if pyStrip tc.name == "" then filterStructuredGo nowMs acc rest
    else
      (if pyStrip tc.id == "" then
        { tc with id := "tc_" ++ toString nowMs ++ "_" ++ toString acc }
       else tc) :: filterStructuredGo nowMs (acc + 1) rest

/-- The tool-call resolution step of one turn of `chat`
(src/lib/analyzer.py:1138-1167): the structured channel is filtered; if
and only if it yields zero tool calls, the DSML fallback parser is run
once on the raw content plus reasoning.  The boolean reports whether
the fallback produced the calls. -/
def resolveTurnToolCalls (nowMs : Nat) (structured : List ToolCall)
    (rawContent reasoning : String) : List ToolCall × Bool :=
  let filtered := filterStructuredGo nowMs 0 structured
  if filtered ≠ [] then (filtered, false)
  else
    let dsmlCalls := parseDsml (pyStrip (rawContent ++ "\n" ++ reasoning))
    if dsmlCalls ≠ [] then (dsmlCalls, true) else ([], false)

/-! ## Tool-argument validation (C7) — `validate_args`, src/lib/schema.py -/

/-- A JSON value as produced by `json.loads` of a tool call's
arguments. -/
inductive JVal where
  | s (v : String)
  | i (v : Int)
  | b (v : Bool)
  | null
  | arr (elems : List JVal)
  | obj (fields : List (String × JVal))

/-- Python `str(v)` as far as the validator uses it: only
`str(args.get(k, "")).strip()` being empty is ever observed.  Strings
render to themselves; ints, bools and `None` render to their literal
text; lists and dicts are abstracted by their (never whitespace-only)
bracket text. -/
def pyStr : JVal → String
  | .s v => v
  | .i v => toString v
  | .b true => "True"
  | .b false => "False"
  | .null => "None"
  | .arr _ => "[...]"
  | .obj _ => "\x7b...\x7d"

/-- One entry of a tool's `properties` dict: either not a dict at all
(`junk`, skipped by the type checks) or a dict with an optional
`"type"` field. -/
inductive PropVal where
  | junk
  | spec (ty : Option String)
deriving DecidableEq, Repr

/-- One tool's schema entry: `{"required": […], "properties": {…}}`. -/
structure ToolSpec where
  required : List String
  properties : List (String × PropVal)
deriving DecidableEq, Repr

/-- The `for k in required` loop of `validate_args`
(src/lib/schema.py:46-51): first missing required key, then the
blank-string check for required fields of declared type string. -/
def checkRequired (props : List (String × PropVal)) (fields : List (String × JVal)) :
    List String → Option String
  | [] => none
  | k :: ks =>
    match fields.lookup k with
    | none => some ("缺少必填参数: " ++ k)
    | some v =>
      if (match props.lookup k with
          | some (.spec (some t)) => t == "string"
          | _ => false) && pyStrip (pyStr v) == "" then
        some ("必填参数 " ++ k ++ " 不能为空")
      else checkRequired props fields ks

/-- The `for k, v in args.items()` loop of `validate_args`
(src/lib/schema.py:53-72): exact runtime-type match per declared
primitive type; a Python `bool` is an `int` instance, so the `integer`
case explicitly rejects bools — modelled by `.i` and `.b` being
distinct constructors. -/
def checkTypes (props : List (String × PropVal)) : List (String × JVal) → Option String
  | [] => none
  | (k, v) :: rest =>
    match props.lookup k with
    | some (.spec (some t)) =>
      if t == "string" then
        match v with
        | .s _ => checkTypes props rest
        | _ => some ("参数 " ++ k ++ " 类型应为 string")
      else if t == "integer" then
        match v with
        | .i _ => checkTypes props rest
        | _ => some ("参数 " ++ k ++ " 类型应为 integer")
      else if t == "boolean" then
        match v with
        | .b _ => checkTypes props rest
        | _ => some ("参数 " ++ k ++ " 类型应为 boolean")
      else if t == "object" then
        match v with
        | .obj _ => checkTypes props rest
        | _ => some ("参数 " ++ k ++ " 类型应为 object")
      else if t == "array" then
        match v with
        | .arr _ => checkTypes props rest
        | _ => some ("参数 " ++ k ++ " 类型应为 array")
      else checkTypes props rest
    | _ => checkTypes props rest

/-- `validate_args(tool_name, args, tool_specs)` (src/lib/schema.py:33-73). -/
def validateArgs (toolName : String) (args : JVal)
    (toolSpecs : List (String × ToolSpec)) : Option String :=
  match toolSpecs.lookup toolName with
  | none => some ("未知工具: " ++ toolName)
  | some spec =>
    match args with
    | .obj fields =>
      let extras := (fields.map Prod.fst).filter (fun k => (spec.properties.lookup k).isNone)
      if extras ≠ [] then
        some ("包含未定义参数: " ++
          joinSep ", " (extras.mergeSort (fun a b => decide (a ≤ b))))
      else
        match checkRequired spec.properties fields spec.required with
        | some e => some e
        | none => checkTypes spec.properties fields
    | _ => some "参数必须是 JSON 对象"

/-! ## Dangerous-command classification (C8, C10) -/

/-- An operator-supplied regex option: the empty/unset config string
(falsy, the surrounding `if` skips the check entirely), a pattern whose
compilation raises `re.error` (caught and ignored via `pass`), or a
valid pattern abstracted by its match function (which includes the
`re.IGNORECASE` flag the code passes). -/
inductive OpRegex where
  | absent
  | invalid
  | valid (f : String → Bool)

/-- Whether the `re.search(pattern, cmd, flags=re.IGNORECASE)` call
inside the corresponding `try` block reports a match: an absent regex
is never consulted and an invalid one raises before matching. -/
def regexHit : OpRegex → String → Bool
  | .absent, _ => false
  | .invalid, _ => false
  | .valid m, c => m c

/-- `AIAnalyzer._dangerous_action_for_termux_command`
(src/lib/analyzer.py:750-764), parameterized by the built-in
classifier `_is_dangerous_termux_command` (its result is only threaded
through, so the wrapper's behavior is independent of its internals):
deny-regex match forces a dangerous classification (with the built-in
reason, or `extra_deny_regex` when the built-in found none), otherwise
an allow-regex match exempts the command, otherwise the built-in
verdict stands. -/
def dangerousActionFor (builtin : String → Bool × String)
    (deny allw : OpRegex) (cmd : String) : Bool × String :=
  if regexHit deny cmd then
    (true, if (builtin cmd).2 == "" then "extra_deny_regex" else (builtin cmd).2)
  else if regexHit allw cmd then (false, "")
  else builtin cmd

/-! ## Session export/import (C9) — `load_session` / `export_session`,
src/lib/analyzer.py:332-349 -/

/-- The analyzer state touched by `load_session`. -/
structure AState where
  messages : List Msg
  model : String
  summaryModel : String
deriving DecidableEq, Repr

/-- A JSON field value of the payload: a string or anything else
(`isinstance(x, str)` is the only test applied). -/
inductive PVal where
  | str (s : String)
  | other
deriving DecidableEq, Repr

/-- One entry of the imported `messages` list: a dict (a message) or
anything else. -/
inductive PEntry where
  | msg (m : Msg)
  | junk
deriving DecidableEq, Repr

/-- The `messages` field of the payload: a list or anything else. -/
inductive PMsgs where
  | list (l : List PEntry)
  | nonList
deriving DecidableEq, Repr

/-- An imported session payload (`session_data`); `none` fields are
missing keys. -/
structure Payload where
  messagesField : Option PMsgs
  modelField : Option PVal
  summaryField : Option PVal

def isJunkEntry : PEntry → Bool
  | .junk => true
  | _ => false

/-- `AIAnalyzer.load_session` (src/lib/analyzer.py:335-349): reject a
missing/non-list/empty `messages` field and any non-dict entry before
touching the state; then install the messages and conditionally update
the two model names. -/
def loadSession (p : Payload) (st : AState) : Bool × AState :=
  match p.messagesField with
  | none => (false, st)
  | some PMsgs.nonList => (false, st)
  | some (PMsgs.list raw) =>
    if raw = [] then (false, st)
    else if raw.any isJunkEntry then (false, st)
    else
      let msgs := raw.filterMap (fun e => match e with | .msg m => some m | .junk => none)
      let st1 := { st with messages := msgs }
      let st2 :=
        match p.modelField with
        | some (.str m) => if pyStrip m ≠ "" then { st1 with model := pyStrip m } else st1
        | _ => st1
      let st3 :=
        match p.summaryField with
        | some (.str s) =>
          if pyStrip s ≠ "" then { st2 with summaryModel := pyStrip s } else st2
        | _ => st2
      (true, st3)

/-- `AIAnalyzer.export_session` (src/lib/analyzer.py:332-333). -/
def exportSession (st : AState) : Payload :=
  { messagesField := some (PMsgs.list (st.messages.map PEntry.msg)),
    modelField := some (PVal.str st.model),
    summaryField := some (PVal.str st.summaryModel) }

-- ===== THEOREMS =====

theorem isToolRole_eq_false {m : Msg} (h : m.role ≠ "tool") : isToolRole m = false := by
  simp [isToolRole, h]

theorem isToolRole_eq_true {m : Msg} (h : m.role = "tool") : isToolRole m = true := by
  simp [isToolRole, h]

theorem headNotTool_dropWhile (l : List Msg) : headNotTool (l.dropWhile isToolRole) := by
  have h := List.head?_dropWhile_not isToolRole l
  cases hd : l.dropWhile isToolRole with
  | nil => trivial
  | cons m rest =>
    have : isToolRole m ≠ true := by
      have := h
      rw [hd] at this
      simpa using this
    simpa [headNotTool, isToolRole] using this

theorem length_dropWhile_le' (p : Msg → Bool) (l : List Msg) :
    (l.dropWhile p).length ≤ l.length :=
  (List.dropWhile_sublist p).length_le

/-- Every tool call kept by `fixTCs` has a non-blank name. -/
theorem fixTCs_name {cl : Nat} :
    ∀ {i : Nat} {tcs : List ToolCall} {tc : ToolCall},
      tc ∈ fixTCs cl i tcs → pyStrip tc.name ≠ "" := by
  intro i tcs
  induction tcs generalizing i with
  | nil => intro tc h; simp [fixTCs] at h
  | cons t ts ih =>
    intro tc h
    rw [fixTCs] at h
    split_ifs at h with h1 h2
    · simp only [Bool.and_eq_true, bne_iff_ne, ne_eq, beq_iff_eq] at h1
      rcases List.mem_cons.mp h with h3 | h3
      · subst h3; simpa using h1.2
      · exact ih h3
    · exact ih h
    · simp only [Bool.or_eq_true, beq_iff_eq, not_or] at h2
      rcases List.mem_cons.mp h with h3 | h3
      · subst h3; exact h2.2
      · exact ih h3

theorem headNotTool_cons {m : Msg} {rest : List Msg} :
    headNotTool (m :: rest) ↔ m.role ≠ "tool" := Iff.rfl

theorem assistant_ne_tool {m : Msg} (h : m.role = "assistant") : m.role ≠ "tool" := by
  rw [h]; decide

theorem mem_contains_strings {s : String} {l : List String} (h : s ∈ l) :
    l.contains s = true := by
  simpa [List.contains] using List.elem_iff.mpr h

theorem contains_mem_strings {s : String} {l : List String} (h : l.contains s = true) :
    s ∈ l := by
  simpa [List.contains] using List.elem_iff.mp (by simpa [List.contains] using h)

/-- `fixTCs` leaves a list unchanged when every entry already has a
non-blank id and name. -/
theorem fixTCs_eq_self {cl : Nat} :
    ∀ {i : Nat} {tcs : List ToolCall},
      (∀ tc ∈ tcs, pyStrip tc.id ≠ "" ∧ pyStrip tc.name ≠ "") →
      fixTCs cl i tcs = tcs := by
  intro i tcs
  induction tcs generalizing i with
  | nil => intro _; rfl
  | cons t ts ih =>
    intro h
    obtain ⟨hid, hname⟩ := h t (List.mem_cons_self _ _)
    have c1 : ¬((pyStrip t.id == "" && pyStrip t.name != "") = true) := by
      simp [hid]
    have c2 : ¬((pyStrip t.id == "" || pyStrip t.name == "") = true) := by
      simp [hid, hname]
    rw [fixTCs, if_neg c1, if_neg c2, ih fun tc htc => h tc (List.mem_cons_of_mem _ htc)]

theorem takeWhile_tools {tools rest : List Msg}
    (ht : ∀ tm ∈ tools, tm.role = "tool") (hr : headNotTool rest) :
    (tools ++ rest).takeWhile isToolRole = tools ∧
    (tools ++ rest).dropWhile isToolRole = rest := by
  have hp : ∀ tm ∈ tools, isToolRole tm = true := fun tm h => isToolRole_eq_true (ht tm h)
  have htk : rest.takeWhile isToolRole = [] := by
    cases rest with
    | nil => rfl
    | cons r rs =>
      have := isToolRole_eq_false (headNotTool_cons.mp hr)
      rw [List.takeWhile_cons_of_neg (by simp [this])]
  have hdr : rest.dropWhile isToolRole = rest := by
    cases rest with
    | nil => rfl
    | cons r rs =>
      have := isToolRole_eq_false (headNotTool_cons.mp hr)
      rw [List.dropWhile_cons_of_neg (by simp [this])]
  exact ⟨by rw [List.takeWhile_append_of_pos hp, htk, List.append_nil],
         by rw [List.dropWhile_append_of_pos hp, hdr]⟩

theorem blockParts_after {cnt : Nat} {tcs : List ToolCall} {rest : List Msg} :
    (blockParts cnt tcs rest).2.2 = rest.dropWhile isToolRole := rfl

/-- Every collected tool message is a tool message with a non-blank id
that matches some entry of the filtered `tool_calls` list. -/
theorem blockParts_toolMsgs_mem {cnt : Nat} {tcs : List ToolCall} {rest : List Msg}
    {tm : Msg} (h : tm ∈ (blockParts cnt tcs rest).2.1) :
    tm.role = "tool" ∧ pyStrip tm.toolCallId ≠ "" ∧
      ∃ tc ∈ (blockParts cnt tcs rest).1, pyStrip tc.id = pyStrip tm.toolCallId := by
  have h' := h
  simp only [blockParts] at h'
  obtain ⟨hrun, hpred⟩ := List.mem_filter.mp h'
  have hrole : tm.role = "tool" := by
    have := List.mem_takeWhile_imp hrun
    simpa [isToolRole] using this
  simp only [Bool.and_eq_true, bne_iff_ne, ne_eq] at hpred
  obtain ⟨hne, hcont⟩ := hpred
  obtain ⟨tc1, htc1, hid1⟩ := List.mem_map.mp (contains_mem_strings hcont)
  refine ⟨hrole, hne, tc1, ?_, hid1⟩
  simp only [blockParts, List.mem_filter]
  refine ⟨htc1, mem_contains_strings ?_⟩
  rw [hid1]
  exact List.mem_map.mpr ⟨tm, h', rfl⟩

/-- Every retained `tool_calls` entry has a non-blank name and is
answered by some collected tool message. -/
theorem blockParts_filtered_mem {cnt : Nat} {tcs : List ToolCall} {rest : List Msg}
    {tc : ToolCall} (h : tc ∈ (blockParts cnt tcs rest).1) :
    pyStrip tc.name ≠ "" ∧
      ∃ tm ∈ (blockParts cnt tcs rest).2.1, pyStrip tm.toolCallId = pyStrip tc.id := by
  have h' := h
  simp only [blockParts] at h'
  obtain ⟨hfix, hpred⟩ := List.mem_filter.mp h'
  refine ⟨fixTCs_name hfix, ?_⟩
  obtain ⟨tm, htm, hid⟩ := List.mem_map.mp (contains_mem_strings hpred)
  exact ⟨tm, htm, hid⟩

/-- If no `tool_calls` entry survives, then no tool message was
collected either. -/
theorem blockParts_toolMsgs_nil {cnt : Nat} {tcs : List ToolCall} {rest : List Msg}
    (h : (blockParts cnt tcs rest).1 = []) : (blockParts cnt tcs rest).2.1 = [] := by
  by_contra hne
  obtain ⟨tm, htm⟩ := List.exists_mem_of_ne_nil _ hne
  obtain ⟨-, -, tc, htc, -⟩ := blockParts_toolMsgs_mem htm
  rw [h] at htc
  exact absurd htc (List.not_mem_nil _)

/-- On a log in sanitized shape the assistant-case body is the
identity: it returns the `tool_calls` list, the full tool run and the
remainder unchanged. -/
theorem blockParts_clean {cnt : Nat} {tcs : List ToolCall} {tools rest : List Msg}
    (htools : ∀ tm ∈ tools, tm.role = "tool")
    (hmatch : ∀ tm ∈ tools, pyStrip tm.toolCallId ≠ "" ∧
      ∃ tc ∈ tcs, pyStrip tc.id = pyStrip tm.toolCallId)
    (hans : ∀ tc ∈ tcs, pyStrip tc.name ≠ "" ∧
      ∃ tm ∈ tools, pyStrip tm.toolCallId = pyStrip tc.id)
    (hrest : headNotTool rest) :
    blockParts cnt tcs (tools ++ rest) = (tcs, tools, rest) := by
  have hidne : ∀ tc ∈ tcs, pyStrip tc.id ≠ "" ∧ pyStrip tc.name ≠ "" := by
    intro tc htc
    obtain ⟨hn, tm, htm, hid⟩ := hans tc htc
    exact ⟨by rw [← hid]; exact (hmatch tm htm).1, hn⟩
  have hfix : fixTCs cnt 0 tcs = tcs := fixTCs_eq_self hidne
  obtain ⟨htk, hdr⟩ := takeWhile_tools htools hrest
  have htm_eq : (tools.filter
      (fun tm => pyStrip tm.toolCallId != "" &&
        (tcs.map (fun tc => pyStrip tc.id)).contains (pyStrip tm.toolCallId))) = tools := by
    rw [List.filter_eq_self]
    intro tm htm
    obtain ⟨hne, tc, htc, hid⟩ := hmatch tm htm
    simp only [Bool.and_eq_true, bne_iff_ne, ne_eq]
    exact ⟨hne, mem_contains_strings (List.mem_map.mpr ⟨tc, htc, hid⟩)⟩
  have hfil : (tcs.filter
      (fun tc => (tools.map (fun tm => pyStrip tm.toolCallId)).contains (pyStrip tc.id))) = tcs := by
    rw [List.filter_eq_self]
    intro tc htc
    obtain ⟨-, tm, htm, hid⟩ := hans tc htc
    exact mem_contains_strings (List.mem_map.mpr ⟨tm, htm, hid⟩)
  simp only [blockParts, hfix, htk, hdr, htm_eq, hfil]

theorem san_headNotTool {l : List Msg} (h : San l) : headNotTool l := by
  cases h with
  | nil => trivial
  | plain hm _ _ _ => exact hm
  | block _ ha _ _ _ _ _ _ _ => exact assistant_ne_tool ha

theorem isAB_eq_false_of_none {m : Msg} (h : m.toolCalls = none) : isAB m = false := by
  simp [isAB, h]

theorem isAB_eq_false_of_some_nil {m : Msg} (h : m.toolCalls = some []) : isAB m = false := by
  simp [isAB, h]

theorem isAB_eq_false_of_role {m : Msg} (h : ¬ m.role = "assistant") : isAB m = false := by
  simp [isAB, h]

theorem msg_update_toolCalls_self {m : Msg} {tcs : List ToolCall}
    (h : m.toolCalls = some tcs) : { m with toolCalls := some tcs } = m := by
  cases m
  simp only [Msg.mk.injEq, and_true, true_and]
  exact h.symm

/-- The output of the sanitizer is in sanitized shape. -/
theorem san_sanitizeGo :
    ∀ (fuel cnt : Nat) (l : List Msg), l.length ≤ fuel → San (sanitizeGo fuel cnt l) := by
  intro fuel
  induction fuel with
  | zero =>
    intro cnt l hl
    have hnil : l = [] := List.length_eq_zero.mp (Nat.le_zero.mp hl)
    subst hnil
    exact San.nil
  | succ fuel ih =>
    intro cnt l hl
    match l with
    | [] => exact San.nil
    | msg :: rest =>
      have hrest : rest.length ≤ fuel := by
        simpa using Nat.succ_le_succ_iff.mp (by simpa using hl)
      have hafter : (rest.dropWhile isToolRole).length ≤ fuel :=
        le_trans (length_dropWhile_le' _ _) hrest
      rw [sanitizeGo]
      by_cases ha : msg.role = "assistant"
      · rw [if_pos (by simp [ha])]
        cases htc : msg.toolCalls with
        | none =>
          simp only []
          exact San.plain (assistant_ne_tool ha) (isAB_eq_false_of_none htc)
            (san_headNotTool (ih _ _ hrest)) (ih _ _ hrest)
        | some tcs =>
          cases tcs with
          | nil =>
            simp only []
            exact San.plain (assistant_ne_tool ha) (isAB_eq_false_of_some_nil htc)
              (san_headNotTool (ih _ _ hrest)) (ih _ _ hrest)
          | cons tc0 tcs0 =>
            simp only []
            have hafter' : ((blockParts cnt (tc0 :: tcs0) rest).2.2).length ≤ fuel := by
              rw [blockParts_after]; exact hafter
            cases hfil : (blockParts cnt (tc0 :: tcs0) rest).1 with
            | cons f0 fs =>
              simp only []
              refine @San.block _ (f0 :: fs) ((blockParts cnt (tc0 :: tcs0) rest).2.1) _
                (by simp [ha]) rfl
                (by simp) ?_ ?_ ?_ (san_headNotTool (ih _ _ hafter')) (ih _ _ hafter')
              · intro tm htm
                exact (blockParts_toolMsgs_mem htm).1
              · intro tm htm
                obtain ⟨-, hne, tc, htc', hid⟩ := blockParts_toolMsgs_mem htm
                rw [hfil] at htc'
                exact ⟨hne, tc, htc', hid⟩
              · intro tc htc'
                have hmem : tc ∈ (blockParts cnt (tc0 :: tcs0) rest).1 := by
                  rw [hfil]; exact htc'
                exact blockParts_filtered_mem hmem
            | nil =>
              simp only []
              split_ifs with hc
              · exact ih _ _ hafter'
              · rw [blockParts_toolMsgs_nil hfil]
                simp only [List.length_nil, List.nil_append]
                refine San.plain (assistant_ne_tool ha) ?_
                  (san_headNotTool (ih _ _ hafter')) (ih _ _ hafter')
                exact isAB_eq_false_of_none rfl
      · rw [if_neg (by simp [ha])]
        by_cases ht : msg.role = "tool"
        · rw [if_pos (by simp [ht])]
          exact ih _ _ hrest
        · rw [if_neg (by simp [ht])]
          exact San.plain ht (isAB_eq_false_of_role ha)
            (san_headNotTool (ih _ _ hrest)) (ih _ _ hrest)

/-- The sanitizer is the identity on logs already in sanitized shape. -/
theorem sanitizeGo_eq_of_san :
    ∀ {l : List Msg}, San l → ∀ (fuel cnt : Nat), l.length ≤ fuel →
      sanitizeGo fuel cnt l = l := by
  intro l h
  induction h with
  | nil => intro fuel cnt _; cases fuel <;> rfl
  | plain hm hab hr hsan ih =>
    rename_i m rest
    intro fuel cnt hl
    cases fuel with
    | zero => simp at hl
    | succ fuel =>
      have hrest : rest.length ≤ fuel := by
        simpa using Nat.succ_le_succ_iff.mp (by simpa using hl)
      rw [sanitizeGo]
      by_cases ha : m.role = "assistant"
      · rw [if_pos (by simp [ha])]
        cases htc : m.toolCalls with
        | none => simp only []; rw [ih _ _ hrest]
        | some tcs =>
          cases tcs with
          | nil => simp only []; rw [ih _ _ hrest]
          | cons tc0 tcs0 =>
            exfalso
            have hAB : isAB m = true := by simp [isAB, ha, htc]
            rw [hab] at hAB
            exact Bool.false_ne_true hAB
      · rw [if_neg (by simp [ha]), if_neg (by simp [hm]), ih _ _ hrest]
  | block tcs ha hTC hne htools hmatch hans hr hsan ih =>
    rename_i a tools rest
    intro fuel cnt hl
    cases fuel with
    | zero => simp at hl
    | succ fuel =>
      have hrest : rest.length ≤ fuel := by
        have hl' := hl
        simp only [List.length_cons, List.length_append] at hl'
        omega
      rw [sanitizeGo, if_pos (by simp [ha])]
      cases tcs with
      | nil => exact absurd rfl hne
      | cons tc0 tcs0 =>
        rw [hTC]
        simp only []
        have hbp : blockParts cnt (tc0 :: tcs0) (tools ++ rest) = (tc0 :: tcs0, tools, rest) :=
          blockParts_clean htools hmatch hans hr
        simp only [hbp]
        rw [msg_update_toolCalls_self hTC, ih _ _ hrest]

theorem sanitize_san (l : List Msg) : San (sanitize l) :=
  san_sanitizeGo l.length 0 l le_rfl

theorem sanitize_eq_of_san {l : List Msg} (h : San l) : sanitize l = l :=
  sanitizeGo_eq_of_san h l.length 0 le_rfl

theorem isAB_eq_true {a : Msg} {tcs : List ToolCall} (ha : a.role = "assistant")
    (hTC : a.toolCalls = some tcs) (hne : tcs ≠ []) : isAB a = true := by
  cases tcs with
  | nil => exact absurd rfl hne
  | cons t ts => simp [isAB, ha, hTC]

theorem san_cons_inv {m : Msg} {rest : List Msg} (h : San (m :: rest))
    (hab : isAB m = false) : San rest ∧ headNotTool rest := by
  cases h with
  | plain _ _ hr hs => exact ⟨hs, hr⟩
  | block tcs ha hTC hne htools hmatch hans hr hs =>
    exfalso
    rw [isAB_eq_true ha hTC hne] at hab
    exact absurd hab (by decide)

theorem dropWhile_tools_eq {tools rest : List Msg}
    (ht : ∀ tm ∈ tools, tm.role = "tool") (hr : headNotTool rest) :
    (tools ++ rest).dropWhile isToolRole = rest := (takeWhile_tools ht hr).2

/-- Dropping any prefix of a sanitized log and then the leading tool run
yields a sanitized log again. -/
theorem san_drop {l : List Msg} (h : San l) :
    ∀ n, San (dropLeadingTools (l.drop n)) := by
  induction h with
  | nil => intro n; simp [dropLeadingTools, List.dropWhile_nil]; exact San.nil
  | plain hm hab hr hsan ih =>
    rename_i m rest
    intro n
    cases n with
    | zero =>
      simp only [List.drop_zero]
      rw [dropLeadingTools, List.dropWhile_cons_of_neg (by simp [isToolRole_eq_false hm])]
      exact San.plain hm hab hr hsan
    | succ n => simpa using ih n
  | block tcs ha hTC hne htools hmatch hans hr hsan ih =>
    rename_i a tools rest
    intro n
    cases n with
    | zero =>
      simp only [List.drop_zero]
      rw [dropLeadingTools,
        List.dropWhile_cons_of_neg (by simp [isToolRole_eq_false (assistant_ne_tool ha)])]
      exact San.block _ ha hTC hne htools hmatch hans hr hsan
    | succ n =>
      simp only [List.drop_succ_cons]
      rw [List.drop_append_eq_append_drop]
      by_cases hcmp : tools.length ≤ n
      · rw [List.drop_eq_nil_of_le hcmp, List.nil_append]
        exact ih _
      · have hq : n - tools.length = 0 := by omega
        rw [hq, List.drop_zero, dropLeadingTools,
          dropWhile_tools_eq (fun tm htm => htools tm (List.mem_of_mem_drop htm)) hr]
        exact hsan

/-- `countTrim` preserves the sanitized shape and the head message when
the head is neither a tool message nor an open assistant block. -/
theorem san_countTrim {l : List Msg} {m0 : Msg} (h : San l) (hl : l.head? = some m0)
    (hnt : m0.role ≠ "tool") (hab : isAB m0 = false) (M : Nat) :
    San (countTrim M l) ∧ (countTrim M l).head? = some m0 := by
  cases l with
  | nil => simp at hl
  | cons m rest =>
    have hm0 : m = m0 := by simpa using hl
    subst hm0
    by_cases hlen : (m :: rest).length > M
    · rw [countTrim, if_pos hlen]
      refine ⟨San.plain hnt hab (headNotTool_dropWhile _) ?_, rfl⟩
      split_ifs with hM0 hM1
      · exact san_drop h 1
      · simpa using san_drop h 0
      · exact san_drop h _
    · rw [countTrim, if_neg hlen]
      exact ⟨h, rfl⟩

/-- The block partition concatenates back to the original list. -/
theorem flatten_mkBlocksGo : ∀ (fuel : Nat) (l : List Msg), (mkBlocksGo fuel l).flatten = l := by
  intro fuel
  have hsingle : ∀ (l : List Msg), ((l.map (fun m => [m])).flatten : List Msg) = l := by
    intro l
    induction l with
    | nil => rfl
    | cons r rs ihr => simpa using ihr
  induction fuel with
  | zero =>
    intro l
    cases l with
    | nil => rfl
    | cons m rest =>
      have hz : mkBlocksGo 0 (m :: rest) = (m :: rest).map (fun m => [m]) := rfl
      rw [hz, hsingle]
  | succ fuel ih =>
    intro l
    cases l with
    | nil => rfl
    | cons m rest =>
      rw [mkBlocksGo]
      split_ifs with hab
      · simp only [List.flatten_cons, ih]
        simp [List.takeWhile_append_dropWhile]
      · simp [ih]

theorem flatten_mkBlocks (l : List Msg) : (mkBlocks l).flatten = l :=
  flatten_mkBlocksGo l.length l

/-- No block of the partition is empty. -/
theorem mkBlocksGo_ne_nil : ∀ (fuel : Nat) (l : List Msg) (b : List Msg),
    b ∈ mkBlocksGo fuel l → b ≠ [] := by
  intro fuel
  induction fuel with
  | zero =>
    intro l b hb
    cases l with
    | nil => simp [mkBlocksGo] at hb
    | cons m rest =>
      have hz : mkBlocksGo 0 (m :: rest) = (m :: rest).map (fun m => [m]) := rfl
      rw [hz] at hb
      obtain ⟨x, -, hx⟩ := List.mem_map.mp hb
      rw [← hx]
      simp
  | succ fuel ih =>
    intro l b hb
    cases l with
    | nil => simp [mkBlocksGo] at hb
    | cons m rest =>
      rw [mkBlocksGo] at hb
      split_ifs at hb with hab
      · rcases List.mem_cons.mp hb with h1 | h1
        · rw [h1]; simp
        · exact ih _ _ h1
      · rcases List.mem_cons.mp hb with h1 | h1
        · rw [h1]; simp
        · exact ih _ _ h1

/-- The concatenation of any suffix of the block partition of a
sanitized log is itself sanitized (and cannot start with a tool
message). -/
theorem san_blocks_suffix {l : List Msg} (h : San l) :
    ∀ (fuel : Nat), l.length ≤ fuel →
    ∀ bs : List (List Msg), bs <:+ mkBlocksGo fuel l →
      San bs.flatten ∧ headNotTool bs.flatten := by
  induction h with
  | nil =>
    intro fuel hl bs hbs
    have : bs = [] := by
      cases fuel <;> simpa [mkBlocksGo] using List.suffix_nil.mp (by simpa [mkBlocksGo] using hbs)
    subst this
    exact ⟨San.nil, trivial⟩
  | plain hm hab hr hsan ih =>
    rename_i m rest
    intro fuel hl bs hbs
    cases fuel with
    | zero => simp at hl
    | succ fuel =>
      have hrest : rest.length ≤ fuel := by
        simpa using Nat.succ_le_succ_iff.mp (by simpa using hl)
      rw [mkBlocksGo, if_neg (by simp [hab])] at hbs
      rcases List.suffix_cons_iff.mp hbs with h1 | h1
      · subst h1
        rw [List.flatten_cons, flatten_mkBlocksGo]
        exact ⟨San.plain hm hab hr hsan, hm⟩
      · exact ih fuel hrest bs h1
  | block tcs ha hTC hne htools hmatch hans hr hsan ih =>
    rename_i a tools rest
    intro fuel hl bs hbs
    cases fuel with
    | zero => simp at hl
    | succ fuel =>
      have hrest : rest.length ≤ fuel := by
        have hl' := hl
        simp only [List.length_cons, List.length_append] at hl'
        omega
      rw [mkBlocksGo, if_pos (isAB_eq_true ha hTC hne),
        (takeWhile_tools htools hr).1, (takeWhile_tools htools hr).2] at hbs
      rcases List.suffix_cons_iff.mp hbs with h1 | h1
      · subst h1
        rw [List.flatten_cons, flatten_mkBlocksGo]
        exact ⟨San.block _ ha hTC hne htools hmatch hans hr hsan,
          assistant_ne_tool ha⟩
      · exact ih fuel hrest bs h1

theorem msgsSize_append {sz : Msg → Nat} {a b : List Msg} :
    msgsSize sz (a ++ b) = msgsSize sz a + msgsSize sz b := by
  simp [msgsSize]

theorem msgsSize_reverse {sz : Msg → Nat} {a : List Msg} :
    msgsSize sz a.reverse = msgsSize sz a := by
  simp [msgsSize]
  exact List.sum_reverse _

theorem reverse_flatten_map_reverse : ∀ (p : List (List Msg)),
    ((p.map List.reverse).flatten).reverse = p.reverse.flatten := by
  intro p
  induction p with
  | nil => rfl
  | cons b bs ih => simp [ih]

/-- Trace of the accumulation loop: the blocks accepted form a prefix
`p` of the reversed block list, the accumulated messages are their
reversed concatenation, and the running size adds their sizes. -/
theorem keepLoop_spec (sz : Msg → Nat) (C : Nat) :
    ∀ (bsr : List (List Msg)) (kept : List Msg) (kc : Nat),
    ∃ p q, bsr = p ++ q ∧
      (keepLoop sz C bsr kept kc).1 = kept ++ (p.map List.reverse).flatten ∧
      (keepLoop sz C bsr kept kc).2 = kc + (p.map (msgsSize sz)).sum := by
  intro bsr
  induction bsr with
  | nil =>
    intro kept kc
    exact ⟨[], [], rfl, by simp [keepLoop], by simp [keepLoop]⟩
  | cons b bs ih =>
    intro kept kc
    rw [keepLoop]
    split_ifs with hbrk
    · exact ⟨[], b :: bs, rfl, by simp, by simp⟩
    · obtain ⟨p, q, hpq, h1, h2⟩ := ih (kept ++ b.reverse) (kc + msgsSize sz b)
      refine ⟨b :: p, q, by rw [hpq, List.cons_append], ?_, ?_⟩
      · rw [h1]; simp
      · rw [h2]; simp; ring

/-- Once something has been kept within budget the loop never exceeds
the budget. -/
theorem keepLoop_le (sz : Msg → Nat) (C : Nat) :
    ∀ (bsr : List (List Msg)) (kept : List Msg) (kc : Nat), kept ≠ [] → kc ≤ C →
      (keepLoop sz C bsr kept kc).2 ≤ C := by
  intro bsr
  induction bsr with
  | nil => intro kept kc _ hle; simpa [keepLoop] using hle
  | cons b bs ih =>
    intro kept kc hk hle
    rw [keepLoop]
    split_ifs with hbrk
    · simpa using hle
    · push_neg at hbrk
      exact ih _ _ (by simp [hk]) (hbrk hk)

theorem dropToolsAfterHead_id {m : Msg} {t : List Msg} (h : headNotTool t) :
    dropToolsAfterHead (m :: t) = m :: t := by
  cases t with
  | nil => rfl
  | cons m1 r =>
    rw [dropToolsAfterHead, if_neg (by simp [headNotTool_cons.mp h])]

theorem msgsSize_flatten_map_reverse (sz : Msg → Nat) :
    ∀ p : List (List Msg),
      msgsSize sz ((p.map List.reverse).flatten) = (p.map (msgsSize sz)).sum := by
  intro p
  induction p with
  | nil => rfl
  | cons b bs ih =>
    simp only [List.map_cons, List.flatten_cons, msgsSize_append, msgsSize_reverse,
      List.sum_cons, ih]

/-- Master lemma for the character-budget phase on a sanitized log with
a plain head: the result is still sanitized, keeps the head, and either
fits the budget or consists of exactly the head plus the most recent
atomic block (or the head alone when no block exists), the combination
already exceeding the budget. -/
theorem charTrim_spec (sz : Msg → Nat) (C : Nat) {m : Msg} {rest : List Msg}
    (h : San (m :: rest)) (hnt : m.role ≠ "tool") (hab : isAB m = false) :
    San (charTrim sz C (m :: rest)) ∧ (charTrim sz C (m :: rest)).head? = some m ∧
    (msgsSize sz (charTrim sz C (m :: rest)) ≤ C ∨
      (∃ b, (mkBlocks rest).getLast? = some b ∧ charTrim sz C (m :: rest) = m :: b ∧
        C < sz m + msgsSize sz b) ∨
      (charTrim sz C (m :: rest) = [m] ∧ C < sz m)) := by
  obtain ⟨hsanRest, hhnRest⟩ := san_cons_inv h hab
  rw [charTrim]
  split_ifs with hles
  · exact ⟨h, rfl, Or.inl hles⟩
  · cases hbsr : (mkBlocks rest).reverse with
    | nil =>
      have hblocks : mkBlocks rest = [] := by
        have := congrArg List.reverse hbsr
        simpa using this
      have hrest_nil : rest = [] := by
        rw [← flatten_mkBlocks rest, hblocks]
        rfl
      subst hrest_nil
      refine ⟨San.plain hnt hab trivial San.nil, rfl, Or.inr (Or.inr ⟨rfl, ?_⟩)⟩
      have hlt : C < msgsSize sz [m] := Nat.not_le.mp hles
      simpa [msgsSize] using hlt
    | cons bLast bsr' =>
      have hmemb : bLast ∈ mkBlocks rest := by
        have : bLast ∈ (mkBlocks rest).reverse := by rw [hbsr]; exact List.mem_cons_self _ _
        exact List.mem_reverse.mp this
      have hbne : bLast ≠ [] := mkBlocksGo_ne_nil _ _ _ hmemb
      have hblocks : mkBlocks rest = bsr'.reverse ++ [bLast] := by
        have := congrArg List.reverse hbsr
        simpa using this
      have hsufB : [bLast] <:+ mkBlocks rest := ⟨bsr'.reverse, hblocks.symm⟩
      obtain ⟨hsanB', hhnB'⟩ := san_blocks_suffix hsanRest rest.length le_rfl [bLast] hsufB
      have hflatB : ([bLast] : List (List Msg)).flatten = bLast := by simp
      rw [hflatB] at hsanB' hhnB'
      rw [keepLoop, if_neg (by simp)]
      simp only [List.nil_append]
      by_cases hfit : sz m + msgsSize sz bLast ≤ C
      · obtain ⟨p, q, hpq, h1, h2⟩ :=
          keepLoop_spec sz C bsr' bLast.reverse (sz m + msgsSize sz bLast)
        have hkept : (keepLoop sz C bsr' bLast.reverse (sz m + msgsSize sz bLast)).1.reverse
            = ((bLast :: p).reverse : List (List Msg)).flatten := by
          rw [h1, ← reverse_flatten_map_reverse]
          simp
        have hsufP : ((bLast :: p).reverse : List (List Msg)) <:+ mkBlocks rest := by
          refine ⟨q.reverse, ?_⟩
          rw [hblocks, hpq]
          simp
        obtain ⟨hsanK, hhnK⟩ :=
          san_blocks_suffix hsanRest rest.length le_rfl _ hsufP
        rw [hkept, dropToolsAfterHead_id hhnK]
        refine ⟨San.plain hnt hab hhnK hsanK, rfl, Or.inl ?_⟩
        have hsz : msgsSize sz (m :: ((bLast :: p).reverse : List (List Msg)).flatten)
            = (keepLoop sz C bsr' bLast.reverse (sz m + msgsSize sz bLast)).2 := by
          rw [h2]
          have : msgsSize sz (((bLast :: p).reverse : List (List Msg)).flatten)
              = msgsSize sz bLast + (p.map (msgsSize sz)).sum := by
            rw [← reverse_flatten_map_reverse, msgsSize_reverse]
            simp only [List.map_cons, List.flatten_cons, msgsSize_append, msgsSize_reverse,
              msgsSize_flatten_map_reverse]
          simp only [msgsSize, List.map_cons, List.sum_cons] at this ⊢
          omega
        rw [hsz]
        exact keepLoop_le sz C bsr' bLast.reverse (sz m + msgsSize sz bLast)
          (by simp [hbne]) hfit
      · have hres : keepLoop sz C bsr' bLast.reverse (sz m + msgsSize sz bLast)
            = (bLast.reverse, sz m + msgsSize sz bLast) := by
          cases bsr' with
          | nil => rfl
          | cons b2 bs2 =>
            rw [keepLoop, if_pos]
            constructor
            · simp [hbne]
            · omega
        rw [hres]
        simp only [List.reverse_reverse]
        rw [dropToolsAfterHead_id hhnB']
        refine ⟨San.plain hnt hab hhnB' hsanB', rfl, Or.inr (Or.inl ⟨bLast, ?_, rfl, ?_⟩)⟩
        · rw [List.getLast?_eq_head?_reverse, hbsr]
          rfl
        · omega

/-- Sanitized logs satisfy the at-least-once pairing check. -/
theorem pairingOkGo_atLeast_of_san {l : List Msg} (h : San l) :
    ∀ fuel, l.length ≤ fuel → pairingOkGo false fuel l = true := by
  induction h with
  | nil => intro fuel _; cases fuel <;> rfl
  | plain hm hab hr hsan ih =>
    rename_i m rest
    intro fuel hl
    cases fuel with
    | zero => simp at hl
    | succ fuel =>
      have hrest : rest.length ≤ fuel := by
        simpa using Nat.succ_le_succ_iff.mp (by simpa using hl)
      rw [pairingOkGo, if_neg (by simp [hm]), if_neg (by simp [hab])]
      exact ih fuel hrest
  | block tcs ha hTC hne htools hmatch hans hr hsan ih =>
    rename_i a tools rest
    intro fuel hl
    cases fuel with
    | zero => simp at hl
    | succ fuel =>
      have hrest : rest.length ≤ fuel := by
        have hl' := hl
        simp only [List.length_cons, List.length_append] at hl'
        omega
      rw [pairingOkGo, if_neg (by simp [assistant_ne_tool ha]),
        if_pos (isAB_eq_true ha hTC hne), (takeWhile_tools htools hr).1,
        (takeWhile_tools htools hr).2]
      simp only [hTC, Option.getD_some, Bool.and_eq_true, List.all_eq_true]
      refine ⟨⟨?_, ?_⟩, ?_⟩
      · intro tc htc
        obtain ⟨-, tm, htm, hid⟩ := hans tc htc
        have hpos : 0 < tools.countP (fun tm => pyStrip tm.toolCallId == pyStrip tc.id) :=
          List.countP_pos_iff.mpr ⟨tm, htm, by simp [hid]⟩
        rw [if_neg (by simp)]
        simpa using hpos
      · intro tm htm
        obtain ⟨-, tc, htc, hid⟩ := hmatch tm htm
        exact List.any_eq_true.mpr ⟨tc, htc, by simp [hid]⟩
      · exact ih fuel hrest

/-- The sanitizer keeps a head message that is neither an assistant nor
a tool message. -/
theorem sanitize_head {l : List Msg} {m0 : Msg} (hl : l.head? = some m0)
    (ha : m0.role ≠ "assistant") (ht : m0.role ≠ "tool") :
    (sanitize l).head? = some m0 := by
  cases l with
  | nil => simp at hl
  | cons m rest =>
    have hm : m = m0 := by simpa using hl
    subst hm
    have hlen : (m :: rest).length = rest.length + 1 := by simp
    rw [sanitize, hlen, sanitizeGo, if_neg (by simp [ha]), if_neg (by simp [ht])]
    rfl

/-- Combined specification of the full `_trim_messages` pipeline on a
log whose first message is the system message: the output is sanitized,
non-empty, keeps the system message at index 0, and either fits the
character budget or is exactly the system message plus the most recent
atomic block (the system message alone when no block remains), which
already exceeds the budget. -/
theorem trim_pipeline_spec (sz : Msg → Nat) (M C : Nat) {l : List Msg} {m0 : Msg}
    (hl : l.head? = some m0) (hsys : m0.role = "system") :
    San (trimMessages sz M C l) ∧ (trimMessages sz M C l).head? = some m0 ∧
    (msgsSize sz (trimMessages sz M C l) ≤ C ∨
      (∃ b, (mkBlocks ((countTrim M (sanitize l)).drop 1)).getLast? = some b ∧
        trimMessages sz M C l = m0 :: b ∧ C < sz m0 + msgsSize sz b) ∨
      (trimMessages sz M C l = [m0] ∧ C < sz m0)) := by
  have hnt : m0.role ≠ "tool" := by rw [hsys]; decide
  have hna : m0.role ≠ "assistant" := by rw [hsys]; decide
  have hab : isAB m0 = false := isAB_eq_false_of_role hna
  have h1 : San (sanitize l) := sanitize_san l
  have hh1 : (sanitize l).head? = some m0 := sanitize_head hl hna hnt
  obtain ⟨h2, hh2⟩ := san_countTrim h1 hh1 hnt hab M
  cases hmid : countTrim M (sanitize l) with
  | nil => rw [hmid] at hh2; simp at hh2
  | cons m rest =>
    rw [hmid] at h2 hh2
    have hm : m = m0 := by simpa using hh2
    subst hm
    have hgoal := charTrim_spec sz C h2 hnt hab
    simp only [trimMessages, hmid, List.drop_succ_cons, List.drop_zero]
    exact hgoal

/-- C1 (counterexample): the claim as stated is false.  In the log
`[system, assistant{tool_calls:[tc1]}, tool{tc1}, tool{tc1}]` two tool
messages answer the same `tool_calls` id; sanitize + trim keeps both,
so the id is answered twice, not "exactly once" as the claim (via the
spec's definition of "answered") requires. -/
theorem c1_counterexample :
    pairingExact (trimMessages msgSize 40 100000
      [⟨"system", "p", "", none, ""⟩,
       ⟨"assistant", "", "", some [⟨"tc1", "t", "\x7b\x7d"⟩], ""⟩,
       ⟨"tool", "ok", "", none, "tc1"⟩,
       ⟨"tool", "ok", "", none, "tc1"⟩]) = false := by decide

/-- C1 (amended): for every message log whose first message is the
system message, after sanitize followed by trim every `tool` message
belongs to the run following an assistant message whose `tool_calls`
contains an entry with its `tool_call_id`, and every `tool_calls` entry
of every retained assistant message is answered by at least one (rather
than exactly one) following tool message. -/
theorem c1_pairing_after_trim (sz : Msg → Nat) (M C : Nat) (l : List Msg) (m0 : Msg)
    (hl : l.head? = some m0) (hsys : m0.role = "system") :
    pairingAtLeast (trimMessages sz M C l) = true := by
  obtain ⟨hsan, -, -⟩ := trim_pipeline_spec sz M C hl hsys
  exact pairingOkGo_atLeast_of_san hsan _ le_rfl

/-- C1 witness: the amended pairing theorem applied to a concrete log
(the counterexample log of `c1_counterexample`). -/
theorem c1_pairing_after_trim_witness :
    pairingAtLeast (trimMessages msgSize 40 100000
      [⟨"system", "p", "", none, ""⟩,
       ⟨"assistant", "", "", some [⟨"tc1", "t", "\x7b\x7d"⟩], ""⟩,
       ⟨"tool", "ok", "", none, "tc1"⟩,
       ⟨"tool", "ok", "", none, "tc1"⟩]) = true :=
  c1_pairing_after_trim msgSize 40 100000 _ _ rfl rfl

/-- C2: sanitize is idempotent: applying
`_sanitize_messages_for_tools` twice yields exactly the same log as
applying it once, for every message log. -/
theorem c2_sanitize_idempotent (l : List Msg) : sanitize (sanitize l) = sanitize l :=
  sanitize_eq_of_san (sanitize_san l)

/-- C3 (counterexample): the claim as stated is false.  For the log
consisting of a single oversized system message and budget `C = 10`,
the trimmed log still exceeds the budget although no atomic block
exists at all, so the claimed exception ("the sole most-recent atomic
block by itself already exceeds C") cannot account for it. -/
theorem c3_counterexample :
    ¬ (msgsSize msgSize (trimMessages msgSize 40 10
        [⟨"system", String.mk (List.replicate 50 'a'), "", none, ""⟩]) ≤ 10) ∧
    mkBlocks ((countTrim 40 (sanitize
        [⟨"system", String.mk (List.replicate 50 'a'), "", none, ""⟩])).drop 1) = [] := by
  constructor
  · decide
  · decide

/-- C3 (amended): for every log headed by the system message, every
size function and every ceiling `C`, after trim the total size is at
most `C`, unless the output is exactly the system message plus the most
recent atomic block whose combined size (together with the system
message) already exceeds `C` — that block is kept whole rather than
split — or the system message alone already exceeds `C` when no other
block remains. -/
theorem c3_budget_after_trim (sz : Msg → Nat) (M C : Nat) (l : List Msg) (m0 : Msg)
    (hl : l.head? = some m0) (hsys : m0.role = "system") :
    msgsSize sz (trimMessages sz M C l) ≤ C ∨
      (∃ b, (mkBlocks ((countTrim M (sanitize l)).drop 1)).getLast? = some b ∧
        trimMessages sz M C l = m0 :: b ∧ C < sz m0 + msgsSize sz b) ∨
      (trimMessages sz M C l = [m0] ∧ C < sz m0) :=
  (trim_pipeline_spec sz M C hl hsys).2.2

/-- C3 witness: the amended budget theorem applied to a concrete log
exceeding the budget (system message and the most recent block are
kept, the older user message is dropped). -/
theorem c3_budget_after_trim_witness :
    msgsSize msgSize (trimMessages msgSize 999 100
      [⟨"system", "p", "", none, ""⟩,
       ⟨"user", String.mk (List.replicate 80 'b'), "", none, ""⟩,
       ⟨"user", "TAIL", "", none, ""⟩]) ≤ 100 ∨
      (∃ b, (mkBlocks ((countTrim 999 (sanitize
          [⟨"system", "p", "", none, ""⟩,
           ⟨"user", String.mk (List.replicate 80 'b'), "", none, ""⟩,
           ⟨"user", "TAIL", "", none, ""⟩])).drop 1)).getLast? = some b ∧
        trimMessages msgSize 999 100
          [⟨"system", "p", "", none, ""⟩,
           ⟨"user", String.mk (List.replicate 80 'b'), "", none, ""⟩,
           ⟨"user", "TAIL", "", none, ""⟩] = ⟨"system", "p", "", none, ""⟩ :: b ∧
        100 < msgSize ⟨"system", "p", "", none, ""⟩ + msgsSize msgSize b) ∨
      (trimMessages msgSize 999 100
        [⟨"system", "p", "", none, ""⟩,
         ⟨"user", String.mk (List.replicate 80 'b'), "", none, ""⟩,
         ⟨"user", "TAIL", "", none, ""⟩] = [⟨"system", "p", "", none, ""⟩] ∧
        100 < msgSize ⟨"system", "p", "", none, ""⟩) :=
  c3_budget_after_trim msgSize 999 100 _ _ rfl rfl

/-- C4 (counterexample): the claim as stated is false.  For the
non-empty input log `[user]`, the output of sanitize (and of trim) is
non-empty but its message at index 0 has role `user`, not `system`. -/
theorem c4_counterexample :
    (sanitize [⟨"user", "hi", "", none, ""⟩]).head?.map Msg.role ≠ some "system" ∧
    (trimMessages msgSize 40 140000
      [⟨"user", "hi", "", none, ""⟩]).head?.map Msg.role ≠ some "system" := by
  constructor
  · decide
  · decide

/-- C4 (amended): for every non-empty input log whose message 0 has
role `system`, the outputs of sanitize and of trim are non-empty and
keep that system message at index 0. -/
theorem c4_system_head (sz : Msg → Nat) (M C : Nat) (l : List Msg) (m0 : Msg)
    (hl : l.head? = some m0) (hsys : m0.role = "system") :
    (sanitize l).head? = some m0 ∧ sanitize l ≠ [] ∧
    (trimMessages sz M C l).head? = some m0 ∧ trimMessages sz M C l ≠ [] := by
  have hnt : m0.role ≠ "tool" := by rw [hsys]; decide
  have hna : m0.role ≠ "assistant" := by rw [hsys]; decide
  have hs := sanitize_head hl hna hnt
  obtain ⟨-, ht, -⟩ := trim_pipeline_spec sz M C hl hsys
  refine ⟨hs, ?_, ht, ?_⟩
  · intro hnil; rw [hnil] at hs; simp at hs
  · intro hnil; rw [hnil] at ht; simp at ht

/-- C4 witness: the amended head theorem applied to a concrete log. -/
theorem c4_system_head_witness :
    (sanitize [(⟨"system", "p", "", none, ""⟩ : Msg), ⟨"user", "hi", "", none, ""⟩]).head?
        = some ⟨"system", "p", "", none, ""⟩ ∧
    sanitize [(⟨"system", "p", "", none, ""⟩ : Msg), ⟨"user", "hi", "", none, ""⟩] ≠ [] ∧
    (trimMessages msgSize 40 140000
      [(⟨"system", "p", "", none, ""⟩ : Msg), ⟨"user", "hi", "", none, ""⟩]).head?
        = some ⟨"system", "p", "", none, ""⟩ ∧
    trimMessages msgSize 40 140000
      [(⟨"system", "p", "", none, ""⟩ : Msg), ⟨"user", "hi", "", none, ""⟩] ≠ [] :=
  c4_system_head msgSize 40 140000 _ _ rfl rfl

theorem runToolsGo_append (errors : List String) (xs ys : List ToolOutcome) :
    runToolsGo errors (xs ++ ys) =
      match runToolsGo errors xs with
      | .inl e => runToolsGo e ys
      | .inr s => .inr s := by
  induction xs generalizing errors with
  | nil => rfl
  | cons o os ih =>
    cases o with
    | success => simpa only [List.cons_append, runToolsGo] using ih []
    | validationError e => simpa only [List.cons_append, runToolsGo] using ih errors
    | recoverableError e => simpa only [List.cons_append, runToolsGo] using ih errors
    | fatalError e =>
      simp only [List.cons_append, runToolsGo]
      split_ifs with h4
      · rfl
      · exact ih _

theorem runToolsGo_inl_len {outs : List ToolOutcome} :
    ∀ {errors e2 : List String}, errors.length ≤ 3 →
      runToolsGo errors outs = .inl e2 → e2.length ≤ 3 := by
  induction outs with
  | nil =>
    intro errors e2 hlen h
    simp only [runToolsGo, Sum.inl.injEq] at h
    rw [← h]
    exact hlen
  | cons o os ih =>
    intro errors e2 hlen h
    cases o with
    | success =>
      rw [runToolsGo] at h
      exact @ih [] e2 (by simp) h
    | validationError e =>
      rw [runToolsGo] at h
      exact ih hlen h
    | recoverableError e =>
      rw [runToolsGo] at h
      exact ih hlen h
    | fatalError e =>
      rw [runToolsGo] at h
      split_ifs at h with h4
      simp only [List.length_append, List.length_cons, List.length_nil] at h4
      exact ih (by simp only [List.length_append, List.length_cons, List.length_nil]; omega) h

theorem runToolsGo_inr_shape {outs : List ToolOutcome} :
    ∀ {errors : List String} {s : String},
      runToolsGo errors outs = .inr s → ∃ errs, s = haltSummary errs := by
  induction outs with
  | nil => intro errors s h; exact Sum.noConfusion h
  | cons o os ih =>
    intro errors s h
    cases o with
    | success => rw [runToolsGo] at h; exact ih h
    | validationError e => rw [runToolsGo] at h; exact ih h
    | recoverableError e => rw [runToolsGo] at h; exact ih h
    | fatalError e =>
      rw [runToolsGo] at h
      split_ifs at h with h4
      · exact ⟨errors ++ [e], (Sum.inr.injEq _ _ |>.mp h).symm⟩
      · exact ih h

/-- Processing a success-free run with enough fatal outcomes to push
the tally past 4 necessarily halts. -/
theorem runToolsGo_halts_of_run :
    ∀ (w : List ToolOutcome) (e : List String),
      (∀ o ∈ w, isSuccess o = false) → e.length ≤ 3 →
      4 ≤ e.length + w.countP isFatal →
      ∃ s, runToolsGo e w = .inr s := by
  intro w
  induction w with
  | nil =>
    intro e _ hlen hcount
    simp only [List.countP_nil, Nat.add_zero] at hcount
    omega
  | cons o os ih =>
    intro e hns hlen hcount
    cases o with
    | success =>
      have := hns _ (List.mem_cons_self _ _)
      simp [isSuccess] at this
    | validationError x =>
      rw [runToolsGo]
      refine ih e (fun o ho => hns o (List.mem_cons_of_mem _ ho)) hlen ?_
      simpa [List.countP_cons, isFatal] using hcount
    | recoverableError x =>
      rw [runToolsGo]
      refine ih e (fun o ho => hns o (List.mem_cons_of_mem _ ho)) hlen ?_
      simpa [List.countP_cons, isFatal] using hcount
    | fatalError x =>
      rw [runToolsGo]
      split_ifs with h4
      · exact ⟨_, rfl⟩
      · refine ih (e ++ [x]) (fun o ho => hns o (List.mem_cons_of_mem _ ho)) ?_ ?_
        · simp only [List.length_append, List.length_cons, List.length_nil] at h4 ⊢
          omega
        · simp only [List.countP_cons, isFatal, if_true, List.length_append, List.length_cons,
            List.length_nil] at hcount ⊢
          omega

/-- A fatal window anywhere in the outcome stream forces a halt, no
matter what error tally (at most 3 entries) is carried in. -/
theorem runToolsGo_halts_of_fatalWindow {outs : List ToolOutcome}
    (hw : FatalWindow outs) :
    ∀ e : List String, e.length ≤ 3 → ∃ s, runToolsGo e outs = .inr s := by
  obtain ⟨a, w, c, hout, hns, hcount⟩ := hw
  intro e hlen
  subst hout
  rw [List.append_assoc, runToolsGo_append]
  cases ha : runToolsGo e a with
  | inr s => exact ⟨s, rfl⟩
  | inl e1 =>
    have hl1 : e1.length ≤ 3 := runToolsGo_inl_len hlen ha
    show ∃ s, runToolsGo e1 (w ++ c) = Sum.inr s
    rw [runToolsGo_append]
    obtain ⟨s, hs⟩ := runToolsGo_halts_of_run w e1 hns hl1 (by omega)
    rw [hs]
    exact ⟨s, rfl⟩

theorem outcomesFrom_empty (script : Nat → TurnScript) (k : Nat) :
    outcomesFrom script (k + 1) k = [] := by
  simp [outcomesFrom]

theorem outcomesFrom_split (script : Nat → TurnScript) {i k : Nat} (h : i ≤ k) :
    outcomesFrom script i k = turnOutcomes (script i) ++ outcomesFrom script (i + 1) k := by
  rw [outcomesFrom, outcomesFrom]
  have hn : k + 1 - i = (k + 1 - (i + 1)) + 1 := by omega
  rw [hn, List.range'_succ]
  simp

/-- The chat loop halts with the diagnostic summary, without a further
model request, once the carried error tally is doomed to reach the
ceiling within the scripted turns. -/
theorem chatLoopGo_halts (script : Nat → TurnScript) :
    ∀ (fuel turnIdx k : Nat) (errors : List String) (requests : Nat),
      turnIdx ≤ k → k - turnIdx < fuel →
      (∀ i, turnIdx ≤ i → i ≤ k → ∀ t, script i ≠ .finalTurn t) →
      errors.length ≤ 3 →
      (∃ s, runToolsGo errors (outcomesFrom script turnIdx k) = .inr s) →
      ∃ n errs, chatLoopGo script errors requests turnIdx fuel
          = (requests + n, ChatResult.halted (haltSummary errs)) ∧ n ≤ k - turnIdx + 1 := by
  intro fuel
  induction fuel with
  | zero => intro turnIdx k errors requests h1 h2 _ _ _; omega
  | succ fuel ih =>
    intro turnIdx k errors requests hik hfuel hnf hlen hrun
    rw [chatLoopGo]
    cases hscript : script turnIdx with
    | finalTurn t => exact absurd hscript (hnf turnIdx le_rfl hik t)
    | retryTurn =>
      have hsplit := outcomesFrom_split script hik
      rw [hscript] at hsplit
      simp only [turnOutcomes, List.nil_append] at hsplit
      rw [hsplit] at hrun
      rcases Nat.lt_or_ge turnIdx k with hlt | hge
      · obtain ⟨n, errs, hres, hn⟩ := ih (turnIdx + 1) k errors (requests + 1) hlt
          (by omega) (fun i hi1 hi2 t => hnf i (by omega) hi2 t) hlen hrun
        refine ⟨n + 1, errs, ?_, by omega⟩
        rw [hres]
        have : requests + 1 + n = requests + (n + 1) := by omega
        rw [this]
      · have hek : turnIdx = k := le_antisymm hik hge
        subst hek
        rw [outcomesFrom_empty] at hrun
        obtain ⟨s, hs⟩ := hrun
        exact Sum.noConfusion hs
    | toolTurn outs =>
      simp only []
      have hsplit := outcomesFrom_split script hik
      rw [hscript] at hsplit
      simp only [turnOutcomes] at hsplit
      rw [hsplit, runToolsGo_append] at hrun
      cases hfirst : runToolsGo errors outs with
      | inr s =>
        obtain ⟨errs, hserrs⟩ := runToolsGo_inr_shape hfirst
        exact ⟨1, errs, by rw [hserrs], by omega⟩
      | inl e2 =>
        simp only []
        rw [hfirst] at hrun
        have hrun2 : ∃ s, runToolsGo e2 (outcomesFrom script (turnIdx + 1) k) = .inr s := hrun
        have hl2 : e2.length ≤ 3 := runToolsGo_inl_len hlen hfirst
        rcases Nat.lt_or_ge turnIdx k with hlt | hge
        · obtain ⟨n, errs, hres, hn⟩ := ih (turnIdx + 1) k e2 (requests + 1) hlt
            (by omega) (fun i hi1 hi2 t => hnf i (by omega) hi2 t) hl2 hrun2
          refine ⟨n + 1, errs, ?_, by omega⟩
          rw [hres]
          have : requests + 1 + n = requests + (n + 1) := by omega
          rw [this]
        · have hek : turnIdx = k := le_antisymm hik hge
          subst hek
          rw [outcomesFrom_empty] at hrun2
          obtain ⟨s, hs⟩ := hrun2
          exact Sum.noConfusion hs

/-- C5: once four consecutive fatal (non-recoverable, non-validation)
tool-call errors occur — consecutive across turns, with the tally reset
only by a successful tool call — the chat loop halts with the diagnostic
summary string of `AIAnalyzer.chat` and issues no further model
request: the number of requests is at most the index (from 1) of the
turn containing the fourth fatal error.  The ceiling is global to the
conversation: the window may span several turns. -/
theorem c5_fatal_error_ceiling (script : Nat → TurnScript) (k : Nat)
    (hk : k < 24)
    (hnofinal : ∀ i, i ≤ k → ∀ t, script i ≠ .finalTurn t)
    (hwin : FatalWindow (outcomesThrough script k)) :
    ∃ errs, (chatLoop script).2 = ChatResult.halted (haltSummary errs) ∧
      (chatLoop script).1 ≤ k + 1 := by
  have hrun := runToolsGo_halts_of_fatalWindow hwin [] (by simp)
  obtain ⟨n, errs, hres, hn⟩ := chatLoopGo_halts script 24 0 k [] 0 (Nat.zero_le k)
    (by omega) (fun i _ hik t => hnofinal i hik t) (by simp) hrun
  refine ⟨errs, ?_, ?_⟩
  · rw [chatLoop, hres]
  · rw [chatLoop, hres]
    simp only []
    omega

/-- C5 witness: a script with fatal errors spread over turns 0, 1 and 2
(with a recoverable error interspersed) halts by turn 2 with at most 3
model requests. -/
theorem c5_fatal_error_ceiling_witness :
    ∃ errs, (chatLoop (fun i =>
        if i = 0 then
          TurnScript.toolTurn [ToolOutcome.fatalError "e1", ToolOutcome.fatalError "e2"]
        else if i = 1 then
          TurnScript.toolTurn [ToolOutcome.recoverableError "r", ToolOutcome.fatalError "e3"]
        else if i = 2 then TurnScript.toolTurn [ToolOutcome.fatalError "e4"]
        else TurnScript.finalTurn "done")).2 = ChatResult.halted (haltSummary errs) ∧
      (chatLoop (fun i =>
        if i = 0 then
          TurnScript.toolTurn [ToolOutcome.fatalError "e1", ToolOutcome.fatalError "e2"]
        else if i = 1 then
          TurnScript.toolTurn [ToolOutcome.recoverableError "r", ToolOutcome.fatalError "e3"]
        else if i = 2 then TurnScript.toolTurn [ToolOutcome.fatalError "e4"]
        else TurnScript.finalTurn "done")).1 ≤ 2 + 1 :=
  c5_fatal_error_ceiling _ 2 (by omega)
    (by
      intro i hi t
      interval_cases i <;> simp)
    ⟨[], [ToolOutcome.fatalError "e1", ToolOutcome.fatalError "e2",
        ToolOutcome.recoverableError "r", ToolOutcome.fatalError "e3",
        ToolOutcome.fatalError "e4"], [],
      by decide, by decide, by decide⟩

/-- C6: for a finished turn whose structured channel yielded zero tool
calls and whose raw content spells a legacy-marker (DSML) invocation of
`r2_open_file` with the single parameter `file_path=/a.so`, the
fallback parser synthesizes exactly one tool call named `r2_open_file`
with arguments `{"file_path": "/a.so"}` (and the fallback flag is set);
and whenever the structured channel yields at least one tool call, the
result is exactly the filtered structured calls and the fallback is not
attempted. -/
theorem c6_dsml_fallback :
    resolveTurnToolCalls 0 []
        ("<|DSML|invoke name=\"r2_open_file\">\n<|DSML|parameter name=\"file_path\">/a.so</|DSML|parameter>\n</|DSML|invoke>")
        ""
      = ([{ id := "dsml_0", name := "r2_open_file",
            args := "\x7b\"file_path\": \"/a.so\"\x7d" }], true) ∧
    (∀ (nowMs : Nat) (structured : List ToolCall) (raw reas : String),
      filterStructuredGo nowMs 0 structured ≠ [] →
      resolveTurnToolCalls nowMs structured raw reas
        = (filterStructuredGo nowMs 0 structured, false)) := by
  constructor
  · decide
  · intro nowMs structured raw reas hne
    rw [resolveTurnToolCalls, if_pos hne]

/-- C6 witness: the second conjunct of `c6_dsml_fallback` applied to a
concrete structured tool call. -/
theorem c6_dsml_fallback_witness :
    resolveTurnToolCalls 7 [{ id := "call_1", name := "r2_open_file", args := "\x7b\x7d" }]
        "ignored" ""
      = ([{ id := "call_1", name := "r2_open_file", args := "\x7b\x7d" }], false) :=
  c6_dsml_fallback.2 7 [{ id := "call_1", name := "r2_open_file", args := "\x7b\x7d" }]
    "ignored" "" (by decide)

/-- A successful required-field pass means every required string-typed
field is present and non-blank after stripping. -/
theorem checkRequired_none {props : List (String × PropVal)}
    {fields : List (String × JVal)} :
    ∀ {req : List String}, checkRequired props fields req = none →
      ∀ k ∈ req, props.lookup k = some (PropVal.spec (some "string")) →
        ∃ v, fields.lookup k = some v ∧ pyStrip (pyStr v) ≠ "" := by
  intro req
  induction req with
  | nil => intro _ k hk; simp at hk
  | cons k0 ks ih =>
    intro h k hk hstr
    rw [checkRequired] at h
    cases hlk : fields.lookup k0 with
    | none => rw [hlk] at h; exact Option.noConfusion h
    | some v =>
      rw [hlk] at h
      simp only [] at h
      split_ifs at h with hblank
      rcases List.mem_cons.mp hk with rfl | hk2
      · refine ⟨v, hlk, ?_⟩
        intro hempty
        apply hblank
        rw [hstr]
        simp [hempty]
      · exact ih h k hk2 hstr

/-- C7: validating `{"path": "  "}` against a tool with
`required=["path"]` and `properties={"path":{"type":"string"}}` returns
the "required field empty" error, not success; and in general whenever
validation succeeds, every required field of declared type string is
present with a value that is non-empty after trimming whitespace. -/
theorem c7_required_string_nonblank :
    validateArgs "t" (JVal.obj [("path", JVal.s "  ")])
        [("t", ⟨["path"], [("path", PropVal.spec (some "string"))]⟩)]
      = some "必填参数 path 不能为空" ∧
    (∀ (toolSpecs : List (String × ToolSpec)) (toolName : String)
        (fields : List (String × JVal)) (spec : ToolSpec) (k : String),
      toolSpecs.lookup toolName = some spec →
      validateArgs toolName (JVal.obj fields) toolSpecs = none →
      k ∈ spec.required →
      spec.properties.lookup k = some (PropVal.spec (some "string")) →
      ∃ v, fields.lookup k = some v ∧ pyStrip (pyStr v) ≠ "") := by
  constructor
  · decide
  · intro toolSpecs toolName fields spec k hlk hval hreq hstr
    rw [validateArgs, hlk] at hval
    simp only [] at hval
    split_ifs at hval with hex
    cases hcr : checkRequired spec.properties fields spec.required with
    | some e =>
      rw [hcr] at hval
      simp only [] at hval
      exact Option.noConfusion hval
    | none => exact checkRequired_none hcr k hreq hstr

/-- C7 witness: the general part applied to a concrete succeeding
validation. -/
theorem c7_required_string_nonblank_witness :
    ∃ v, ([("path", JVal.s "/bin/ls")] : List (String × JVal)).lookup "path" = some v ∧
      pyStrip (pyStr v) ≠ "" :=
  c7_required_string_nonblank.2
    [("t", ⟨["path"], [("path", PropVal.spec (some "string"))]⟩)] "t"
    [("path", JVal.s "/bin/ls")] ⟨["path"], [("path", PropVal.spec (some "string"))]⟩
    "path" (by decide)
    (by decide) (by decide) (by decide)

/-- C8: the operator allow-regex exempts a command that the built-in
dangerous patterns would flag — but only if the command does not also
match the operator deny-regex: a deny-regex match classifies the
command dangerous even when the allow-regex also matches (the deny
check runs first and returns immediately). -/
theorem c8_deny_overrides_allow (builtin : String → Bool × String)
    (deny allw : OpRegex) (f : String → Bool) (cmd : String) :
    ((builtin cmd).1 = true → allw = OpRegex.valid f → f cmd = true →
      regexHit deny cmd = false →
      dangerousActionFor builtin deny allw cmd = (false, "")) ∧
    (regexHit deny cmd = true → (dangerousActionFor builtin deny allw cmd).1 = true) := by
  constructor
  · intro _ hA hf hd
    rw [dangerousActionFor, if_neg (by simp [hd]), if_pos (by simp [hA, regexHit, hf])]
  · intro hd
    rw [dangerousActionFor, if_pos (by simp [hd])]

/-- C8 witness: with a built-in that flags everything, an allow-listed
command is exempted, while a command matching both the allow- and the
deny-regex stays dangerous. -/
theorem c8_deny_overrides_allow_witness :
    dangerousActionFor (fun _ => (true, "rm -rf"))
        (OpRegex.valid (fun c => c == "rm -rf /data"))
        (OpRegex.valid (fun c => c == "rm -rf /sdcard/tmp")) "rm -rf /sdcard/tmp"
      = (false, "") ∧
    (dangerousActionFor (fun _ => (true, "rm -rf"))
        (OpRegex.valid (fun c => c == "rm -rf /data"))
        (OpRegex.valid (fun _ => true)) "rm -rf /data").1 = true :=
  ⟨(c8_deny_overrides_allow (fun _ => (true, "rm -rf"))
      (OpRegex.valid (fun c => c == "rm -rf /data"))
      (OpRegex.valid (fun c => c == "rm -rf /sdcard/tmp"))
      (fun c => c == "rm -rf /sdcard/tmp") "rm -rf /sdcard/tmp").1
      rfl rfl (by decide) (by decide),
   (c8_deny_overrides_allow (fun _ => (true, "rm -rf"))
      (OpRegex.valid (fun c => c == "rm -rf /data"))
      (OpRegex.valid (fun _ => true)) (fun _ => true) "rm -rf /data").2 (by decide)⟩

/-- C10: the dangerous-command action classifier never propagates a
regex error: an operator regex whose compilation raises `re.error`
behaves exactly like an unset regex (the exception is caught and
ignored), so classification falls back to the built-in pattern list and
the remaining valid operator regex; with both regexes invalid the
verdict is exactly the built-in one. -/
theorem c10_invalid_regex_ignored (builtin : String → Bool × String)
    (reg : OpRegex) (cmd : String) :
    dangerousActionFor builtin OpRegex.invalid reg cmd
      = dangerousActionFor builtin OpRegex.absent reg cmd ∧
    dangerousActionFor builtin reg OpRegex.invalid cmd
      = dangerousActionFor builtin reg OpRegex.absent cmd ∧
    dangerousActionFor builtin OpRegex.invalid OpRegex.invalid cmd = builtin cmd := by
  refine ⟨rfl, ?_, rfl⟩
  by_cases h : regexHit reg cmd <;> simp [dangerousActionFor, regexHit, h]

/-- Helper: re-importing a message list embedded as payload entries
recovers it. -/
theorem filterMap_msg_entries (l : List Msg) :
    (l.map PEntry.msg).filterMap
      (fun e => match e with | PEntry.msg m => some m | PEntry.junk => none) = l := by
  induction l with
  | nil => rfl
  | cons m rest ih => simp [ih]

/-- C9: session import is atomic — a payload whose `messages` field is
missing, not a list, empty, or contains a non-dict entry is rejected
with `False` and the analyzer state is left entirely unchanged — and a
payload produced by `export_session` of a state with a non-empty log is
accepted with `True` and restores exactly that message log. -/
theorem c9_load_session_atomic :
    (∀ (p : Payload) (st : AState),
      (p.messagesField = none ∨ p.messagesField = some PMsgs.nonList ∨
       p.messagesField = some (PMsgs.list []) ∨
       (∃ l, p.messagesField = some (PMsgs.list l) ∧ PEntry.junk ∈ l)) →
      loadSession p st = (false, st)) ∧
    (∀ st st2 : AState, st.messages ≠ [] →
      (loadSession (exportSession st) st2).1 = true ∧
      (loadSession (exportSession st) st2).2.messages = st.messages) := by
  constructor
  · intro p st hbad
    rcases hbad with h | h | h | ⟨l, h, hj⟩
    · rw [loadSession, h]
    · rw [loadSession, h]
    · rw [loadSession, h]
      rfl
    · rw [loadSession, h]
      simp only []
      by_cases hnil : l = []
      · rw [if_pos hnil]
      · rw [if_neg hnil, if_pos (List.any_eq_true.mpr ⟨PEntry.junk, hj, rfl⟩)]
  · intro st st2 hne
    rw [loadSession]
    simp only [exportSession]
    rw [if_neg (by simpa using hne)]
    rw [if_neg (by simp [isJunkEntry])]
    rw [filterMap_msg_entries]
    constructor
    · split_ifs <;> rfl
    · split_ifs <;> rfl

/-- C9 witness: exporting a one-message session and importing it into a
different state restores the log. -/
theorem c9_load_session_atomic_witness :
    (loadSession (exportSession ⟨[⟨"system", "p", "", none, ""⟩], "m1", "m2"⟩)
        ⟨[], "x", "y"⟩).1 = true ∧
    (loadSession (exportSession ⟨[⟨"system", "p", "", none, ""⟩], "m1", "m2"⟩)
        ⟨[], "x", "y"⟩).2.messages = [⟨"system", "p", "", none, ""⟩] :=
  c9_load_session_atomic.2 ⟨[⟨"system", "p", "", none, ""⟩], "m1", "m2"⟩
    ⟨[], "x", "y"⟩ (by decide)
